import Mathlib

/-!
Verification of the diff algebra and change-log synchronizer of
`invenio_curations` (files `services/diff.py`, `services/comment.py`,
`services/utils.py`).

The embedding works over `List Char` ("Chars") for all text.  Python values
that flow through the diff pipeline (strings, tuples, lists, dicts with
string keys) are modelled by the inductive type `Value`; sequences inside a
`Value` are encoded by an explicit `vnil`/`vcons` spine so that all
functions are structurally recursive and kernel-computable.

Modelling notes, applied consistently below:
* Python `set()` of strings (used by `DiffProcessor.compare` for
  `to_add` / `to_remove` / `skip_second_loop`) is modelled as a
  duplicate-free list in insertion order.  CPython iterates small string
  sets in a hash-dependent order; the model fixes the deterministic
  refinement "insertion order".
* Python exceptions are modelled with `Except Unit`; any raised exception
  is `Except.error ()`.
* `ast.literal_eval` (stdlib) is modelled by a recursive-descent parser
  `parseF` for exactly the literal grammar that Python `repr` produces for
  the modelled values (single- or double-quoted strings with backslash
  escapes, tuples, lists, dicts); inputs outside this grammar yield an
  error, as `literal_eval` raises on every input our pipeline ever feeds
  it that falls outside this grammar.
* `html.parser.HTMLParser` as used by `TagStripper` (stdlib, wrapped by
  `cleanup_html_tags` in `utils.py`) is modelled by a two-state machine
  that drops everything between `<` and `>`; this is its behaviour on the
  well-formed markup produced by `DiffProcessor.to_html` and on tag-free
  text.
* `json.dumps` is modelled by `jsonDumps` (default separators,
  `ensure_ascii=True`).  It is only ever consumed through the
  character-set equality `set(json.dumps(x)) == set(json.dumps(y))` of
  `DiffElement.__eq__` / `DiffElement.compare`.
-/

set_option maxRecDepth 100000

namespace InvenioCurations
abbrev Chars := List Char

instance {ε α : Type} [DecidableEq ε] [DecidableEq α] : DecidableEq (Except ε α)
  | .ok a, .ok b =>
    if h : a = b then .isTrue (by rw [h]) else .isFalse (fun hc => h (Except.ok.inj hc))
  | .ok _, .error _ => .isFalse (fun hc => Except.noConfusion hc)
  | .error _, .ok _ => .isFalse (fun hc => Except.noConfusion hc)
  | .error e, .error f =>
    if h : e = f then .isTrue (by rw [h]) else .isFalse (fun hc => h (Except.error.inj hc))

/-- Apostrophe (single quote) character. -/
def sqC : Char := Char.ofNat 39

/-- Double quote character. -/
def dqC : Char := Char.ofNat 34

/-- Backslash character. -/
def bsC : Char := Char.ofNat 92

/-- Left brace character. -/
def lbC : Char := Char.ofNat 123

/-- Right brace character. -/
def rbC : Char := Char.ofNat 125

/-- Vertical bar character, the joiner of `_get_joined_update`. -/
def barC : Char := Char.ofNat 124

/-- Newline character. -/
def nlC : Char := Char.ofNat 10

/-- Space character. -/
def spC : Char := Char.ofNat 32

/-- Comma character. -/
def commaC : Char := Char.ofNat 44

/-- Colon character. -/
def colonC : Char := Char.ofNat 58

/-- Dot character. -/
def dotC : Char := Char.ofNat 46

/-- Left parenthesis character. -/
def lpC : Char := Char.ofNat 40

/-- Right parenthesis character. -/
def rpC : Char := Char.ofNat 41

/-- Left square bracket character. -/
def lkC : Char := Char.ofNat 91

/-- Right square bracket character. -/
def rkC : Char := Char.ofNat 93

/-- Less-than character (tag opener). -/
def ltC : Char := Char.ofNat 60

/-- Greater-than character (tag closer). -/
def gtC : Char := Char.ofNat 62

/-- Ampersand character (HTML character-reference opener). -/
def ampC : Char := Char.ofNat 38

/-- Tab character. -/
def tabC : Char := Char.ofNat 9

/-- Carriage-return character. -/
def crC : Char := Char.ofNat 13

/-- Python whitespace characters recognized by `str.strip()` / `str.split()`. -/
def isPyWs (c : Char) : Bool :=
  c = spC || c = tabC || c = nlC || c = crC || c = Char.ofNat 11 || c = Char.ofNat 12

/-- Python `str.strip()`: drop whitespace from both ends. -/
def stripWs (s : Chars) : Chars :=
  ((s.dropWhile isPyWs).reverse.dropWhile isPyWs).reverse

/-- Split a character list at every occurrence of the separator character,
keeping empty segments, as Python `str.split(sep)` does for a one-character
separator. -/
def splitOnChar (sep : Char) : Chars → List Chars
  | [] => [[]]
  | c :: cs =>
    if c = sep then [] :: splitOnChar sep cs
    else
      match splitOnChar sep cs with
      | [] => [[c]]
      | r :: rs => (c :: r) :: rs

/-- Python `sep.join(parts)` for a list of character lists. -/
def joinWith (sep : Chars) : List Chars → Chars
  | [] => []
  | [x] => x
  | x :: xs => x ++ sep ++ joinWith sep xs

/-- Python `str.lower()` restricted to ASCII letters (all strings compared
with `.lower()` in the source are ASCII operation names). -/
def strLower (s : Chars) : Chars :=
  s.map fun c => if 65 ≤ c.toNat ∧ c.toNat ≤ 90 then Char.ofNat (c.toNat + 32) else c

/-- Character-set equality of two strings: the model of
`set(json.dumps(x)) == set(json.dumps(y))`. -/
def charSetEq (a b : Chars) : Bool :=
  a.all (fun c => c ∈ b) && b.all (fun c => c ∈ a)

/-- Python values flowing through the diff pipeline: strings, tuples,
lists and string-keyed dicts.  Sequences are encoded by the
`vnil` / `vcons` spine; dict entries are `kv` nodes in the spine of a
`dict`.  (`vnil` / `vcons` / `kv` never occur as top-level payloads of the
Python program; they exist to make every function structurally
recursive.) -/
inductive Value where
  | str (s : Chars)
  | vnil
  | vcons (hd tl : Value)
  | kv (k : Chars) (v : Value)
  | tup (items : Value)
  | lst (items : Value)
  | dict (items : Value)
deriving DecidableEq

/-- Build a spine from a Lean list of values. -/
def VL (l : List Value) : Value := l.foldr Value.vcons Value.vnil

/-- Build a dict spine from a Lean list of key/value pairs. -/
def KVL (l : List (Chars × Value)) : Value :=
  l.foldr (fun p r => Value.vcons (Value.kv p.1 p.2) r) Value.vnil

/-- Hexadecimal digit (lowercase), for escape sequences. -/
def hexDigit (n : Nat) : Char :=
  if n < 10 then Char.ofNat (48 + n) else Char.ofNat (87 + n % 6)

/-- Four-digit lowercase hex rendering of a code point below 0x10000. -/
def hex4 (n : Nat) : Chars :=
  [hexDigit (n / 4096 % 16), hexDigit (n / 256 % 16), hexDigit (n / 16 % 16), hexDigit (n % 16)]

/-- Escape one character the way `json.dumps` (with `ensure_ascii=True`)
escapes string content. -/
def jsonEscChar (c : Char) : Chars :=
  if c = dqC then [bsC, dqC]
  else if c = bsC then [bsC, bsC]
  else if c = nlC then [bsC, Char.ofNat 110]
  else if c = tabC then [bsC, Char.ofNat 116]
  else if c = crC then [bsC, Char.ofNat 114]
  else if c.toNat < 32 then [bsC, Char.ofNat 117] ++ hex4 c.toNat
  else if c.toNat < 127 then [c]
  else if c.toNat < 65536 then [bsC, Char.ofNat 117] ++ hex4 c.toNat
  else
    [bsC, Char.ofNat 117] ++ hex4 (55296 + (c.toNat - 65536) / 1024) ++
      [bsC, Char.ofNat 117] ++ hex4 (56320 + (c.toNat - 65536) % 1024)

/-- Model of Python `json.dumps` with default separators: tuples and lists
both serialize as JSON arrays, dicts keep insertion order.  Spine nodes
serialize their comma-separated contents. -/
def jsonDumps : Value → Chars
  | .str s => dqC :: (s.flatMap jsonEscChar) ++ [dqC]
  | .vnil => []
  | .vcons h .vnil => jsonDumps h
  | .vcons h t => jsonDumps h ++ [commaC, spC] ++ jsonDumps t
  | .kv k v => dqC :: (k.flatMap jsonEscChar) ++ [dqC, colonC, spC] ++ jsonDumps v
  | .tup items => lkC :: jsonDumps items ++ [rkC]
  | .lst items => lkC :: jsonDumps items ++ [rkC]
  | .dict items => lbC :: jsonDumps items ++ [rbC]

/-- Escape one character of Python `repr` string content, given the chosen
quote character. -/
def reprEscChar (q c : Char) : Chars :=
  if c = bsC then [bsC, bsC]
  else if c = q then [bsC, q]
  else if c = nlC then [bsC, Char.ofNat 110]
  else if c = tabC then [bsC, Char.ofNat 116]
  else if c = crC then [bsC, Char.ofNat 114]
  else if c.toNat < 32 ∨ c.toNat = 127 then
    [bsC, Char.ofNat 120, hexDigit (c.toNat / 16 % 16), hexDigit (c.toNat % 16)]
  else [c]

/-- Python `repr` of a string: single quotes unless the content holds a
single quote but no double quote. -/
def reprStr (s : Chars) : Chars :=
  let q := if sqC ∈ s ∧ ¬ dqC ∈ s then dqC else sqC
  q :: (s.flatMap (reprEscChar q)) ++ [q]

/-- Model of Python `repr` (equivalently `str`) for tuples, lists, dicts
and nested strings: the form `ast.literal_eval` re-reads.  A one-element
tuple renders with a trailing comma. -/
def pyRepr : Value → Chars
  | .str s => reprStr s
  | .vnil => []
  | .vcons h .vnil => pyRepr h
  | .vcons h t => pyRepr h ++ [commaC, spC] ++ pyRepr t
  | .kv k v => reprStr k ++ [colonC, spC] ++ pyRepr v
  | .tup .vnil => [lpC, rpC]
  | .tup (.vcons h .vnil) => lpC :: pyRepr h ++ [commaC, rpC]
  | .tup items => lpC :: pyRepr items ++ [rpC]
  | .lst items => lkC :: pyRepr items ++ [rkC]
  | .dict items => lbC :: pyRepr items ++ [rbC]

/-- Model of Python `str()` applied to a diff payload: strings render as
themselves (no quotes), every other value as its `repr`. -/
def pyStr : Value → Chars
  | .str s => s
  | v => pyRepr v

/-- Decode the character following a backslash inside a string literal;
`none` for unsupported escapes. -/
def decodeEsc (e : Char) : Option Char :=
  if e = bsC then some bsC
  else if e = sqC then some sqC
  else if e = dqC then some dqC
  else if e = Char.ofNat 110 then some nlC
  else if e = Char.ofNat 116 then some tabC
  else if e = Char.ofNat 114 then some crC
  else none

/-- Scan a quoted string literal body up to the closing quote `q`,
decoding backslash escapes. -/
def scanStr (q : Char) : Chars → Except Unit (Chars × Chars)
  | [] => .error ()
  | c :: rest =>
    if c = q then .ok ([], rest)
    else if c = bsC then
      match rest with
      | [] => .error ()
      | e :: rest2 =>
        match decodeEsc e, scanStr q rest2 with
        | some d, .ok (body, rest3) => .ok (d :: body, rest3)
        | _, _ => .error ()
    else
      match scanStr q rest with
      | .error _ => .error ()
      | .ok (body, rest2) => .ok (c :: body, rest2)

/-- Parser modes: a single literal, a bracketed sequence up to a closing
character, or dict entries. -/
inductive PMode where
  | one
  | seq (close : Char)
  | kvs

/-- Fuel-bounded recursive-descent parser for the literal grammar that
`pyRepr` emits; the model of `ast.literal_eval` on the pipeline's inputs.
In `seq`/`kvs` modes it returns the spine of the parsed elements and
consumes the closing bracket. -/
def parseF : Nat → PMode → Chars → Except Unit (Value × Chars)
  | 0, _, _ => .error ()
  | n + 1, .one, s =>
    match s.dropWhile isPyWs with
    | [] => .error ()
    | c :: rest =>
      if c = sqC ∨ c = dqC then
        match scanStr c rest with
        | .error _ => .error ()
        | .ok (body, rest2) => .ok (.str body, rest2)
      else if c = lpC then
        match parseF n (.seq rpC) rest with
        | .error _ => .error ()
        | .ok (items, rest2) => .ok (.tup items, rest2)
      else if c = lkC then
        match parseF n (.seq rkC) rest with
        | .error _ => .error ()
        | .ok (items, rest2) => .ok (.lst items, rest2)
      else if c = lbC then
        match parseF n .kvs rest with
        | .error _ => .error ()
        | .ok (items, rest2) => .ok (.dict items, rest2)
      else .error ()
  | n + 1, .seq close, s =>
    match s.dropWhile isPyWs with
    | [] => .error ()
    | c :: rest =>
      if c = close then .ok (.vnil, rest)
      else
        match parseF n .one (c :: rest) with
        | .error _ => .error ()
        | .ok (v, rest2) =>
          match rest2.dropWhile isPyWs with
          | [] => .error ()
          | d :: rest3 =>
            if d = close then .ok (.vcons v .vnil, rest3)
            else if d = commaC then
              match rest3.dropWhile isPyWs with
              | [] => .error ()
              | e :: rest4 =>
                if e = close then .ok (.vcons v .vnil, rest4)
                else
                  match parseF n (.seq close) (e :: rest4) with
                  | .error _ => .error ()
                  | .ok (items, rest5) => .ok (.vcons v items, rest5)
            else .error ()
  | n + 1, .kvs, s =>
    match s.dropWhile isPyWs with
    | [] => .error ()
    | c :: rest =>
      if c = rbC then .ok (.vnil, rest)
      else
        match parseF n .one (c :: rest) with
        | .error _ => .error ()
        | .ok (kval, rest2) =>
          match kval with
          | .str k =>
            match rest2.dropWhile isPyWs with
            | [] => .error ()
            | d :: rest3 =>
              if d = colonC then
                match parseF n .one rest3 with
                | .error _ => .error ()
                | .ok (v, rest4) =>
                  match rest4.dropWhile isPyWs with
                  | [] => .error ()
                  | e :: rest5 =>
                    if e = rbC then .ok (.vcons (.kv k v) .vnil, rest5)
                    else if e = commaC then
                      match rest5.dropWhile isPyWs with
                      | [] => .error ()
                      | f :: rest6 =>
                        if f = rbC then .ok (.vcons (.kv k v) .vnil, rest6)
                        else
                          match parseF n .kvs (f :: rest6) with
                          | .error _ => .error ()
                          | .ok (items, rest7) => .ok (.vcons (.kv k v) items, rest7)
                    else .error ()
              else .error ()
          | _ => .error ()

/-- Model of `ast.literal_eval`: parse one literal and require only
whitespace to remain.  The fuel `2 * length + 2` is a modelling artifact;
it exceeds the recursion depth of any parse of the input. -/
def literalEval (s : Chars) : Except Unit Value :=
  match parseF (2 * s.length + 2) .one s with
  | .error _ => .error ()
  | .ok (v, rest) => if rest.dropWhile isPyWs = [] then .ok v else .error ()

/-- Operation name of a `change` diff tuple. -/
def changeS : Chars := "change".data

/-- Operation name of an `add` diff tuple. -/
def addS : Chars := "add".data

/-- Operation name of a `remove` diff tuple. -/
def removeS : Chars := "remove".data

/-- One diff element: the `(update, key, result)` tuple wrapped by a
`DiffElement`.  The source keeps the tuple in `self._diff`; the wrapping
class (`DiffElement` vs `DiffDescription`) never changes the tuple's
behaviour in the operations modelled here, so the class is not modelled.
Keys are always strings in the modelled flows. -/
structure Elt where
  op : Chars
  key : Chars
  result : Value
deriving DecidableEq

/-- Model of `DiffElement.__eq__`: same operation, same key, and
character-set equality of the `json.dumps` serializations of the
payloads. -/
def eltEq (a b : Elt) : Bool :=
  a.op == b.op && a.key == b.key && charSetEq (jsonDumps a.result) (jsonDumps b.result)

/-- Model of `DiffElement.validate_and_cleanup` for the generic element:
the key must be a string (always true in the model) and the payload must
be a one-element list or a tuple. -/
def validateElt (e : Elt) : Bool :=
  match e.result with
  | .lst (.vcons _ .vnil) => true
  | .tup _ => true
  | _ => false

/-- Remove the first element of the list that is `__eq__`-equal to `x`,
as Python `list.remove`; error when none is (ValueError). -/
def pyListRemove : List Elt → Elt → Except Unit (List Elt)
  | [], _ => .error ()
  | e :: es, x =>
    if eltEq e x then .ok es
    else
      match pyListRemove es x with
      | .error _ => .error ()
      | .ok r => .ok (e :: r)

/-- Model of `DiffProcessor.validate_and_cleanup`: collect the invalid
elements in order, then remove each of them by `list.remove`. -/
def procValidate (l : List Elt) : Except Unit (List Elt) :=
  (l.filter fun e => ¬ validateElt e).foldlM pyListRemove l

/-- Python two-variable unpacking `a, b = v` of a payload: works on
two-element tuples and lists, two-character strings, and two-entry dicts
(yielding the keys); everything else raises. -/
def unpack2 : Value → Except Unit (Value × Value)
  | .tup (.vcons a (.vcons b .vnil)) => .ok (a, b)
  | .lst (.vcons a (.vcons b .vnil)) => .ok (a, b)
  | .str [a, b] => .ok (.str [a], .str [b])
  | .dict (.vcons (.kv k1 _) (.vcons (.kv k2 _) .vnil)) => .ok (.str k1, .str k2)
  | _ => .error ()

/-- Model of `DiffElement.compare`.  Returns `none` for unrelated keys
(`None` in the source), `some false` to drop this element (`False`), and
`some true` to keep it (`True`), together with this element's possibly
rewritten state.  The source's `elif self._diff == other` arm compares a
tuple against a `DiffElement` object, which is always `False` in Python,
so it is omitted. -/
def eltCompare (e o : Elt) : Except Unit (Option Bool × Elt) :=
  if e.key ≠ o.key then .ok (none, e)
  else if charSetEq (jsonDumps e.result) (jsonDumps o.result) = true ∧ e.op ≠ o.op ∧
      strLower e.op ≠ changeS ∧ strLower o.op ≠ changeS then
    .ok (some false, e)
  else if strLower e.op = changeS ∧ strLower o.op = changeS then
    match unpack2 o.result, unpack2 e.result with
    | .ok (oldOther, _), .ok (_, newThis) =>
      if oldOther = newThis then .ok (some false, e)
      else .ok (some true, ⟨e.op, e.key, .tup (VL [oldOther, newThis])⟩)
    | _, _ => .error ()
  else .ok (some true, e)

/-- Model of `DiffProcessor._get_joined_update`:
`"|".join([str(op), str(key), str(result)])`. -/
def joined (e : Elt) : Chars :=
  e.op ++ [barC] ++ e.key ++ [barC] ++ pyStr e.result

/-- Model of `DiffProcessor._get_split_update`: split on `|`, take the
first three parts, and `literal_eval` the third. -/
def splitUpdate (s : Chars) : Except Unit Elt :=
  match splitOnChar barC s with
  | a :: b :: c :: _ =>
    match literalEval c with
    | .ok v => .ok ⟨a, b, v⟩
    | .error _ => .error ()
  | _ => .error ()

/-- Insert a string into a Python `set()` modelled as a duplicate-free
list in insertion order. -/
def setInsert (s : List Chars) (x : Chars) : List Chars :=
  if x ∈ s then s else s ++ [x]

/-- Inner loop of `DiffProcessor.compare` for one element of `this`: scan
every element of `other` (the source has no `break`), threading this
element's state and the `skip_second_loop` / `to_remove` sets. -/
def innerScan : Elt → List Elt → List Chars → List Chars →
    Except Unit (Elt × List Chars × List Chars)
  | e, [], skip, rem => .ok (e, skip, rem)
  | e, o :: os, skip, rem =>
    match eltCompare e o with
    | .error _ => .error ()
    | .ok (none, e1) => innerScan e1 os skip rem
    | .ok (some true, e1) => innerScan e1 os (setInsert skip (joined o)) rem
    | .ok (some false, e1) => innerScan e1 os (setInsert skip (joined o)) (setInsert rem (joined e1))

/-- Outer loop of `DiffProcessor.compare`: run `innerScan` for every
element of `this`, producing updated elements and the two sets. -/
def outerScan : List Elt → List Elt → List Chars → List Chars →
    Except Unit (List Elt × List Chars × List Chars)
  | [], _, skip, rem => .ok ([], skip, rem)
  | e :: es, other, skip, rem =>
    match innerScan e other skip rem with
    | .error _ => .error ()
    | .ok (e1, skip1, rem1) =>
      match outerScan es other skip1 rem1 with
      | .error _ => .error ()
      | .ok (es1, skip2, rem2) => .ok (e1 :: es1, skip2, rem2)

/-- Model of `DiffProcessor.compare(other)`: validate `this`, scan, carry
forward every never-consumed `other` element (re-parsed from its joined
string form), then apply the removals.  Modelling caveat: the source's
`to_add` and `to_remove` are Python `set()`s of strings and CPython
iterates them in an arbitrary (hash-dependent) order; this model
enumerates them in insertion order, which is one of the possible orders.
The choice is observable only when such a set holds two or more
elements; `diffCompareIter` below makes the enumeration order of the
carry-forward set an explicit parameter for statements where the order
matters. -/
def diffCompare (this other : List Elt) : Except Unit (List Elt) := do
  let this1 ← procValidate this
  let (this2, skip, rem) ← outerScan this1 other [] []
  let toAdd := other.foldl (fun acc o => if joined o ∈ skip then acc else setInsert acc (joined o)) []
  let this3 ← toAdd.foldlM (fun l s => do let e ← splitUpdate s; pure (l ++ [e])) this2
  let this4 ← rem.foldlM (fun l s => do let e ← splitUpdate s; pyListRemove l e) this3
  pure this4

/-- Model of `DiffProcessor.compare(other)` with the enumeration order of
the carry-forward `to_add` set made explicit: `iter` is the sequence of
joined strings in which CPython happens to iterate that hash-randomized
set, so theorems quantifying over `iter` cover every order the program
can exhibit.  `diffCompare` is this function at the insertion-order
enumeration. -/
def diffCompareIter (this other : List Elt) (iter : List Chars) : Except Unit (List Elt) := do
  let this1 ← procValidate this
  let (this2, _, rem) ← outerScan this1 other [] []
  let this3 ← iter.foldlM (fun l s => do let e ← splitUpdate s; pure (l ++ [e])) this2
  let this4 ← rem.foldlM (fun l s => do let e ← splitUpdate s; pyListRemove l e) this3
  pure this4

/-- Known action labels of `DiffProcessor._known_actions`. -/
def knownAction (a : Chars) : Bool :=
  a = "resubmit".data || a = "update_while_critiqued".data ||
    a = "update_while_review".data || a = "default".data

/-- Header text for a known action label. -/
def headerFor (a : Chars) : Chars :=
  if a = "resubmit".data then
    "Record was resubmitted for review with the following changes:".data
  else if a = "update_while_critiqued".data then
    "Record started being updated, work in progress...".data
  else if a = "update_while_review".data then
    "Record was updated! Please check the latest changes.".data
  else "Action triggered comment update".data

/-- Sentinel line `Added:`. -/
def addedMsg : Chars := "Added:".data

/-- Sentinel line `Changed:`. -/
def changedMsg : Chars := "Changed:".data

/-- Sentinel line `Removed:`. -/
def removedMsg : Chars := "Removed:".data

/-- Field-path rendering of `DiffElement.to_html`:
`" ".join(key.split("."))`. -/
def spacedKey (k : Chars) : Chars := joinWith [spC] (splitOnChar dotC k)

/-- Field-path recovery of `DiffProcessor.from_html`:
`".".join(key.split(" "))`. -/
def dottedKey (k : Chars) : Chars := joinWith [dotC] (splitOnChar spC k)

/-- Model of `DiffElement.to_html`: a change renders as
`str({spaced_key: {"old": old, "new": new}})` (raising when the payload is
not two-unpackable), anything else as `str({spaced_key: result})`. -/
def eltToHtml (e : Elt) : Except Unit Chars :=
  if e.op ≠ changeS then .ok (pyRepr (.dict (KVL [(spacedKey e.key, e.result)])))
  else
    match unpack2 e.result with
    | .error _ => .error ()
    | .ok (o, n) =>
      .ok (pyRepr (.dict (KVL [(spacedKey e.key,
        .dict (KVL [("old".data, o), ("new".data, n)]))])))

/-- Grouping loop of `DiffProcessor.to_html`: renders each element into
its operation's group, in element order; elements with an unknown
operation are skipped. -/
def collectGroups : List Elt → Except Unit (List Chars × List Chars × List Chars)
  | [] => .ok ([], [], [])
  | e :: es =>
    if e.op = addS then
      match eltToHtml e, collectGroups es with
      | .ok h, .ok (a, c, r) => .ok (h :: a, c, r)
      | _, _ => .error ()
    else if e.op = changeS then
      match eltToHtml e, collectGroups es with
      | .ok h, .ok (a, c, r) => .ok (a, h :: c, r)
      | _, _ => .error ()
    else if e.op = removeS then
      match eltToHtml e, collectGroups es with
      | .ok h, .ok (a, c, r) => .ok (a, c, h :: r)
      | _, _ => .error ()
    else collectGroups es

/-- Template text before the header (`to_html`'s Jinja template, expanded
by hand; `{% %}` tags render as nothing under default Jinja settings and
all surrounding literal text is preserved). -/
def tPre : Chars := "\n<body>\n    <h3> ".data

/-- Template text between the header and the Added section. -/
def tPost : Chars := " </h3>\n\n    ".data

/-- Template text between two sections. -/
def tSep : Chars := "\n\n    ".data

/-- Template text after the Removed section. -/
def tEnd : Chars := "\n</body>\n        ".data

/-- Section opener, up to the section message. -/
def sec1 : Chars := "\n    <h3>".data

/-- Section text between the message and the first item. -/
def sec2 : Chars := "</h3>\n    <ul>\n    ".data

/-- Item opener. -/
def item1 : Chars := "\n        <li>".data

/-- Item closer. -/
def item2 : Chars := "</li>\n    ".data

/-- Section closer. -/
def sec3 : Chars := "\n    </ul>\n    ".data

/-- Rendering of one conditional section of the template: empty groups
render nothing. -/
def renderSection (msg : Chars) (items : List Chars) : Chars :=
  if items = [] then []
  else sec1 ++ msg ++ sec2 ++ (items.flatMap fun x => item1 ++ x ++ item2) ++ sec3

/-- Full rendering of `DiffProcessor.to_html`'s template for a header and
the three groups. -/
def renderTemplate (header : Chars) (adds changes removes : List Chars) : Chars :=
  tPre ++ header ++ tPost ++ renderSection addedMsg adds ++ tSep ++
    renderSection changedMsg changes ++ tSep ++ renderSection removedMsg removes ++ tEnd

/-- Model of `DiffProcessor.to_html(action)`: default the unknown action,
validate-and-cleanup, group, and render. -/
def procToHtml (diffs : List Elt) (action : Chars) : Except Unit Chars := do
  let act := if knownAction action then action else "default".data
  let diffs1 ← procValidate diffs
  let (adds, changes, removes) ← collectGroups diffs1
  pure (renderTemplate (headerFor act) adds changes removes)

/-- Tag-stripping state machine (model of `TagStripper`): outside a tag,
`<` switches in; inside, `>` switches out; tag content is dropped. -/
def stripTagsAux : Bool → Chars → Chars
  | _, [] => []
  | false, c :: cs => if c = ltC then stripTagsAux true cs else c :: stripTagsAux false cs
  | true, c :: cs => if c = gtC then stripTagsAux false cs else stripTagsAux true cs

/-- Tag state after processing a string (false = outside a tag). -/
def tagState : Bool → Chars → Bool
  | st, [] => st
  | false, c :: cs => tagState (c = ltC) cs
  | true, c :: cs => tagState (¬ c = gtC) cs

/-- Model of `cleanup_html_tags` on string input: text without angle
brackets is returned unchanged, otherwise tags are stripped. -/
def cleanupHtmlTags (s : Chars) : Chars :=
  if ltC ∈ s ∨ gtC ∈ s then stripTagsAux false s else s

/-- Line pipeline of `DiffProcessor.from_html`: split the tag-free text on
newlines, strip each line, and drop the blank ones. -/
def normLines (s : Chars) : List Chars :=
  ((splitOnChar nlC s).map stripWs).filter fun l => l ≠ []

/-- Extract the entry list of a dict spine (`none` on a non-dict spine,
which the parser never produces). -/
def kvListOf : Value → Option (List (Chars × Value))
  | .vnil => some []
  | .vcons (.kv k v) t => (kvListOf t).map (fun r => (k, v) :: r)
  | _ => none

/-- First value stored under a key in a dict entry list.  (The rendered
comment lines always carry single-key dicts, so first-wins lookup agrees
with Python's dict semantics on every input the pipeline produces.) -/
def lookupFirst : List (Chars × Value) → Chars → Option Value
  | [], _ => none
  | (k, v) :: r, key => if k = key then some v else lookupFirst r key

/-- Per-line parse of `from_html`: all configured element classes inherit
`DiffElement.from_html = ast.literal_eval`, so one parse attempt models
the variant loop.  A value that is not a dict raises at `d.keys()`; an
empty dict raises `HTMLParseException`; a failed parse leaves `d = {}`,
which also raises. -/
def lineParse (l : Chars) : Except Unit (List (Chars × Value)) :=
  match literalEval l with
  | .ok (.dict items) =>
    match kvListOf items with
    | some [] => .error ()
    | some kvs => .ok kvs
    | none => .error ()
  | .ok _ => .error ()
  | .error _ => .error ()

/-- Model of `DiffElement.build_diff` for a change entry recovered from a
line: the payload must be a dict carrying `old` and `new`. -/
def buildChange (k : Chars) (v : Value) : Except Unit Elt :=
  match v with
  | .dict items =>
    match kvListOf items with
    | some kvs =>
      match lookupFirst kvs "old".data, lookupFirst kvs "new".data with
      | some o, some n => .ok ⟨changeS, k, .tup (VL [o, n])⟩
      | _, _ => .error ()
    | none => .error ()
  | _ => .error ()

/-- Zone handling of one parsed line of `from_html`: rebuild the diff
elements carried by the line's dict according to the active zone. -/
def lineToElts (kvs : List (Chars × Value)) (az cz rz : Bool) : Except Unit (List Elt) :=
  if cz then kvs.mapM fun p => buildChange (dottedKey p.1) p.2
  else if az then .ok (kvs.map fun p => ⟨addS, dottedKey p.1, p.2⟩)
  else if rz then .ok (kvs.map fun p => ⟨removeS, dottedKey p.1, p.2⟩)
  else .ok []

/-- State machine of `from_html` over the content lines (everything after
the header line): sentinel lines switch the zone, other lines are parsed
and their elements appended. -/
def fromHtmlLines : List Chars → Bool → Bool → Bool → List Elt → Except Unit (List Elt)
  | [], _, _, _, acc => .ok acc
  | l :: ls, az, cz, rz, acc =>
    if l = addedMsg then fromHtmlLines ls true false false acc
    else if l = changedMsg then fromHtmlLines ls false true false acc
    else if l = removedMsg then fromHtmlLines ls false false true acc
    else
      match lineParse l with
      | .error _ => .error ()
      | .ok kvs =>
        match lineToElts kvs az cz rz with
        | .error _ => .error ()
        | .ok es => fromHtmlLines ls az cz rz (acc ++ es)

/-- Model of `DiffProcessor.from_html`: strip tags, normalize lines, skip
the first (header) line, and run the zone state machine. -/
def fromHtml (html : Chars) : Except Unit (List Elt) :=
  match normLines (cleanupHtmlTags html) with
  | [] => .ok []
  | _ :: rest => fromHtmlLines rest false false false []

/-- Payload dict of a request event, as accessed by
`hit.get("payload").get("event")` / `.get("content")`. -/
structure HitPayload where
  event? : Option Chars
  content? : Option Chars
deriving DecidableEq

/-- One hit of the event-log search.  Fields are optional to model
Python's `dict.get` returning `None` for missing keys; `createdByUser?`
is `none` when the whole `created_by` dict is missing (so that
`.get("user")` on it raises) and `some u?` when it is present with
optional `user` entry. -/
structure Hit where
  type? : Option Chars
  createdByUser? : Option (Option Chars)
  payload? : Option HitPayload
  id? : Option Chars
  revisionId? : Option Chars
deriving DecidableEq

/-- The request dict as consumed by `CommentProcessor`. -/
structure Request where
  isOpen : Bool
  status? : Option Chars
  rid? : Option Chars
deriving DecidableEq

/-- The one error payload `CommentProcessor._comment_error` ("Record saved
successfully, but failed to update request comment."). -/
inductive CErr where
  | commentError
deriving DecidableEq

/-- An attempted call to the external events service. -/
inductive Action where
  | create (rid : Chars) (content : Chars)
  | update (eid? : Option Chars) (rev? : Option Chars) (content : Chars)
deriving DecidableEq

/-- Behaviour of the external events service during this call: whether
`create` and `update` succeed when attempted. -/
structure Svc where
  createOk : Bool
  updateOk : Bool
deriving DecidableEq

/-- Result of `process_comment`: the service calls attempted and the
errors list after the appends (the source appends `None` on success). -/
structure Outcome where
  actions : List Action
  errors : List (Option CErr)
deriving DecidableEq

/-- Python subscript `request["status"]`: raises `KeyError` when the key
is missing. -/
def pyItem {α : Type} : Option α → Except Unit α
  | none => .error ()
  | some a => .ok a

/-- Model of `CommentProcessor._is_comment_hit`: `hit.get("type") == "C"`
short-circuits before `hit.get("created_by").get("user")`, which raises
when `created_by` is missing. -/
def isCommentHit (h : Hit) : Except Unit Bool :=
  if h.type? ≠ some "C".data then .ok false
  else
    match h.createdByUser? with
    | none => .error ()
    | some u? => .ok (u? = some "system".data)

/-- The event-log scan of the `resubmitted` branch: remember the last
system-authored comment hit and the last `L`-typed hit's
`payload["event"]`. -/
def scanHits : List Hit → Option Chars → Option Hit →
    Except Unit (Option Chars × Option Hit)
  | [], lastLog, lastComment => .ok (lastLog, lastComment)
  | h :: hs, lastLog, lastComment =>
    match isCommentHit h with
    | .error _ => .error ()
    | .ok true => scanHits hs lastLog (some h)
    | .ok false =>
      if h.type? = some "L".data then
        match h.payload? with
        | none => .error ()
        | some p => scanHits hs p.event? lastComment
      else scanHits hs lastLog lastComment

/-- Model of `CommentProcessor._create_new_comment`: evaluating
`request["id"]` inside the `try` raises `KeyError` when missing, which the
inner handler converts to the comment error; otherwise the create call is
attempted and a failing service yields the comment error. -/
def createNewComment (svc : Svc) (req : Request) (content : Chars) :
    List Action × Option CErr :=
  match req.rid? with
  | none => ([], some .commentError)
  | some rid =>
    if svc.createOk then ([.create rid content], none)
    else ([.create rid content], some .commentError)

/-- Model of `CommentProcessor._update_existing_comment` for a present
comment event: the update call carries the event's `id` and
`revision_id`; a failing service yields the comment error. -/
def updateExistingComment (svc : Svc) (newData : Chars) (ev : Hit) :
    List Action × Option CErr :=
  if svc.updateOk then ([.update ev.id? ev.revisionId? newData], none)
  else ([.update ev.id? ev.revisionId? newData], some .commentError)

/-- Fetch and parse the rolling comment content of an event:
`event.get("payload").get("content")` followed by
`DiffProcessor.from_html` (which raises on `None` content). -/
def parseCommentContent (ev : Hit) : Except Unit (List Elt) :=
  match ev.payload? with
  | none => .error ()
  | some p =>
    match p.content? with
    | none => .error ()
    | some content => fromHtml content

/-- The body of `process_comment`'s `try` block: the status dispatch of
the change-log synchronizer, with every internal failure propagating as
an error. -/
def tryProcessComment (svc : Svc) (req : Request) (hits : List Hit)
    (diffs : List Elt) (errors : List (Option CErr)) : Except Unit Outcome := do
  let status ← pyItem req.status?
  if status = "resubmitted".data then do
    let (lastLog, lastComment) ← scanHits hits none none
    if (lastLog = some "resubmitted".data ∨ lastLog = some "critiqued".data) ∧
        lastComment = none then do
      let html ← procToHtml diffs "resubmit".data
      let (acts, err) := createNewComment svc req html
      pure ⟨acts, errors ++ [err]⟩
    else do
      let c ← match lastComment with
        | none => Except.error ()
        | some c => pure c
      let base ← parseCommentContent c
      let merged ← diffCompare diffs base
      let html ← procToHtml merged "resubmit".data
      let (acts, err) := updateExistingComment svc html c
      pure ⟨acts, errors ++ [err]⟩
  else if status = "critiqued".data ∧ diffs.length > 0 then do
    let last ← match hits.getLast? with
      | none => Except.error ()
      | some h => pure h
    if last.type? = some "L".data then do
      let html ← procToHtml diffs "update_while_critiqued".data
      let (acts, err) := createNewComment svc req html
      pure ⟨acts, errors ++ [err]⟩
    else do
      let isC ← isCommentHit last
      if isC then do
        let base ← parseCommentContent last
        let merged ← diffCompare diffs base
        let html ← procToHtml merged "update_while_critiqued".data
        let (acts, err) := updateExistingComment svc html last
        pure ⟨acts, errors ++ [err]⟩
      else pure ⟨[], errors⟩
  else if status = "review".data then do
    let html ← procToHtml diffs "update_while_review".data
    let (acts, err) := createNewComment svc req html
    pure ⟨acts, errors ++ [err]⟩
  else pure ⟨[], errors⟩

/-- Model of `CommentProcessor.process_comment`: the sanity check appends
the comment error and returns; any exception escaping the dispatch is
caught at the top level and converted to the same comment error. -/
def processComment (svc : Svc) (req : Request) (hits : List Hit)
    (diffs : List Elt) (errors : List (Option CErr)) : Outcome :=
  if ¬ req.isOpen then ⟨[], errors ++ [some .commentError]⟩
  else
    match tryProcessComment svc req hits diffs errors with
    | .ok out => out
    | .error _ => ⟨[], errors ++ [some .commentError]⟩

/-- Printable ASCII characters that survive every serialization layer of
the pipeline untouched: no quotes, no backslash, no markup characters,
and not the `|` joiner of `_get_joined_update`. -/
def cleanCharB (c : Char) : Bool :=
  32 ≤ c.toNat && c.toNat ≤ 126 && c ≠ sqC && c ≠ dqC && c ≠ bsC &&
    c ≠ ltC && c ≠ gtC && c ≠ ampC && c ≠ barC

/-- All strings inside a value are clean. -/
def cleanV : Value → Bool
  | .str s => s.all cleanCharB
  | .vnil => true
  | .vcons h t => cleanV h && cleanV t
  | .kv k v => k.all cleanCharB && cleanV v
  | .tup i => cleanV i
  | .lst i => cleanV i
  | .dict i => cleanV i

/-- Well-formedness modes for the spine encoding: a top-level value, a
sequence spine, or a dict-entry spine. -/
inductive WfMode where
  | top
  | seq
  | kvs

/-- Well-formedness of the spine encoding: spine nodes appear only as the
items of `tup`/`lst`, `kv` nodes only as the items of `dict`. -/
def wfM : WfMode → Value → Bool
  | .top, .str _ => true
  | .top, .tup i => wfM .seq i
  | .top, .lst i => wfM .seq i
  | .top, .dict i => wfM .kvs i
  | .top, _ => false
  | .seq, .vnil => true
  | .seq, .vcons h t => wfM .top h && wfM .seq t
  | .seq, _ => false
  | .kvs, .vnil => true
  | .kvs, .vcons (.kv _ v) t => wfM .top v && wfM .kvs t
  | .kvs, _ => false

/-- Well-formed top-level value. -/
def wfV (v : Value) : Bool := wfM .top v

/-- Upper bound on the parser fuel consumed when re-reading a value's
`repr`. -/
def needF : Value → Nat
  | .str _ => 1
  | .vnil => 1
  | .vcons h t => 1 + max (needF h) (needF t)
  | .kv _ v => 1 + needF v
  | .tup i => 1 + needF i
  | .lst i => 1 + needF i
  | .dict i => 1 + needF i

/-- A key is clean for the render/parse round trip when its characters
are clean and none of them is a space (spaces are how dots are encoded in
the rendered form) . -/
def cleanKeyB (k : Chars) : Bool :=
  k.all fun c => cleanCharB c && c ≠ spC

/-- A merge-safe element: operation and key hold clean characters and the
payload's strings are clean, so its joined string form splits and parses
back to itself. -/
def cleanElt (e : Elt) : Bool :=
  e.op.all cleanCharB && e.key.all cleanCharB && wfV e.result && cleanV e.result

/-- A render/parse-safe element: one of the three rendered operations,
a validation-supported and clean payload (a change carries a two-element
tuple), and a clean, space-free key. -/
def goodElt (e : Elt) : Bool :=
  cleanKeyB e.key &&
    (if e.op = changeS then
      match e.result with
      | .tup (.vcons o (.vcons n .vnil)) =>
        wfV o && cleanV o && wfV n && cleanV n
      | _ => false
    else if e.op = addS ∨ e.op = removeS then
      validateElt e && wfV e.result && cleanV e.result
    else false)

/-- Specification-side variant of `innerScan` following the spec's words:
stop scanning `other` at the first non-`Unrelated` comparison, after
applying it and marking that element consumed. -/
def innerScanFM : Elt → List Elt → List Chars → List Chars →
    Except Unit (Elt × List Chars × List Chars)
  | e, [], skip, rem => .ok (e, skip, rem)
  | e, o :: os, skip, rem =>
    match eltCompare e o with
    | .error _ => .error ()
    | .ok (none, e1) => innerScanFM e1 os skip rem
    | .ok (some true, e1) => .ok (e1, setInsert skip (joined o), rem)
    | .ok (some false, e1) => .ok (e1, setInsert skip (joined o), setInsert rem (joined e1))

/-- Outer loop over the first-match-wins inner scan. -/
def outerScanFM : List Elt → List Elt → List Chars → List Chars →
    Except Unit (List Elt × List Chars × List Chars)
  | [], _, skip, rem => .ok ([], skip, rem)
  | e :: es, other, skip, rem =>
    match innerScanFM e other skip rem with
    | .error _ => .error ()
    | .ok (e1, skip1, rem1) =>
      match outerScanFM es other skip1 rem1 with
      | .error _ => .error ()
      | .ok (es1, skip2, rem2) => .ok (e1 :: es1, skip2, rem2)

/-- Specification-side merge with first-match-wins scanning, the
behaviour the spec describes for `DiffProcessor.compare`. -/
def diffCompareFM (this other : List Elt) : Except Unit (List Elt) := do
  let this1 ← procValidate this
  let (this2, skip, rem) ← outerScanFM this1 other [] []
  let toAdd := other.foldl (fun acc o => if joined o ∈ skip then acc else setInsert acc (joined o)) []
  let this3 ← toAdd.foldlM (fun l s => do let e ← splitUpdate s; pure (l ++ [e])) this2
  let this4 ← rem.foldlM (fun l s => do let e ← splitUpdate s; pyListRemove l e) this3
  pure this4

/-- Specification-side reading of the event log: the action of the last
`L`-typed entry (starting from a default). -/
def lastLogFrom (a : Option Chars) : List Hit → Option Chars
  | [] => a
  | h :: hs =>
    if h.type? = some "L".data then
      lastLogFrom (match h.payload? with | some p => p.event? | none => none) hs
    else lastLogFrom a hs

/-- Specification-side reading of the event log: the last system-authored
comment entry (starting from a default). -/
def lastCommentFrom (c : Option Hit) : List Hit → Option Hit
  | [] => c
  | h :: hs =>
    if h.type? = some "C".data ∧ h.createdByUser? = some (some "system".data) then
      lastCommentFrom (some h) hs
    else lastCommentFrom c hs

/-- A hit the scanning loop can process without raising: a `C`-typed hit
carries a `created_by` dict, an `L`-typed hit carries a payload. -/
def wfHit (h : Hit) : Bool :=
  (h.type? ≠ some "C".data || h.createdByUser?.isSome) &&
    (h.type? ≠ some "L".data || h.payload?.isSome)

/-- Rendered content of an empty Diff Set with the `resubmit` label, used
as a parseable rolling-comment payload in concrete event logs. -/
def emptyResubmitHtml : Chars :=
  match procToHtml [] "resubmit".data with
  | .ok h => h
  | .error _ => []

/-- A system-authored comment hit with the empty rendered content. -/
def sysCommentHit : Hit :=
  ⟨some "C".data, some (some "system".data), some ⟨none, some emptyResubmitHtml⟩,
    some "e1".data, some "5".data⟩

/-- Rendered content of `[Change(t, A, B)]` with the
`update_while_critiqued` label, for the C9 witness. -/
def critUpdateHtml : Chars :=
  match procToHtml [⟨changeS, "t".data, .tup (VL [.str "A".data, .str "B".data])⟩]
      "update_while_critiqued".data with
  | .ok h => h
  | .error _ => []

/-- Structural characters that `pyRepr` emits around clean content. -/
def reprStruct : Chars := [sqC, commaC, spC, colonC, lpC, rpC, lkC, rkC, lbC, rbC]

/-- Four-space template indent. -/
def pad4 : Chars := "    ".data

/-- Eight-space template indent of an item line. -/
def pad8 : Chars := "        ".data

/-- Tag-stripped text of one rendered item of a section. -/
def itemStr (x : Chars) : Chars := nlC :: (pad8 ++ x ++ nlC :: pad4)

/-- Tag-stripped text of one conditional section of the template. -/
def secStr (msg : Chars) (items : List Chars) : Chars :=
  if items = [] then []
  else (nlC :: pad4) ++ msg ++ ((nlC :: pad4) ++ (nlC :: pad4)) ++
    items.flatMap itemStr ++ ((nlC :: pad4) ++ (nlC :: pad4))

/-- Content lines contributed by one section: the sentinel, then the item
lines. -/
def secL (msg : Chars) (items : List Chars) : List Chars :=
  if items = [] then [] else msg :: items

/-- The rendered line of one element, as produced by `DiffElement.to_html`
on a supported element. -/
def lineOf (e : Elt) : Chars :=
  if e.op = changeS then
    match e.result with
    | .tup (.vcons o (.vcons n .vnil)) =>
      pyRepr (.dict (KVL [(spacedKey e.key,
        .dict (KVL [("old".data, o), ("new".data, n)]))]))
    | _ => []
  else pyRepr (.dict (KVL [(spacedKey e.key, e.result)]))

/-! ### Auxiliary predicates and specification-side definitions -/

/-! ### Helper lemmas -/

theorem strLower_changeS : strLower changeS = changeS := by decide

theorem eltCompare_change_change (p : Chars) (a b c d : Value) :
    eltCompare ⟨changeS, p, .tup (VL [c, d])⟩ ⟨changeS, p, .tup (VL [a, b])⟩ =
      if a = d then .ok (some false, ⟨changeS, p, .tup (VL [c, d])⟩)
      else .ok (some true, ⟨changeS, p, .tup (VL [a, d])⟩) := by
  simp [eltCompare, VL, unpack2, strLower_changeS]

theorem procValidate_all_valid (l : List Elt) (h : ∀ e ∈ l, validateElt e = true) :
    procValidate l = .ok l := by
  unfold procValidate
  rw [List.filter_eq_nil_iff.mpr (by simpa using h)]
  rfl

theorem outerScan_other_nil (l : List Elt) (skip rem : List Chars) :
    outerScan l [] skip rem = .ok (l, skip, rem) := by
  induction l generalizing skip rem with
  | nil => rfl
  | cons e es ih => simp [outerScan, innerScan, ih]

/-! ### Claim C1: chained change merge -/

/-- C1: merging the Diff Set `[Change(p, b, c)]` (this) with
`[Change(p, a, b)]` (other), for any field path `p` and values with
`a ≠ c`, rewrites the element's payload to span the earlier baseline and
the latest value, yielding exactly `[Change(p, a, c)]`; the other element
is consumed and not re-added. -/
theorem c1_chained_change_merge (p : Chars) (a b c : Value) (h : a ≠ c) :
    diffCompare [⟨changeS, p, .tup (VL [b, c])⟩] [⟨changeS, p, .tup (VL [a, b])⟩] =
      .ok [⟨changeS, p, .tup (VL [a, c])⟩] := by
  unfold diffCompare
  rw [procValidate_all_valid _ (by simp [validateElt, VL])]
  simp only [outerScan, innerScan, eltCompare_change_change, if_neg h, bind, Except.bind]
  simp [setInsert, List.foldlM, pure, Except.pure]

/-- Witness for C1 at `p = "t"`, `a = "a"`, `b = "b"`, `c = "c"`. -/
theorem c1_witness :
    diffCompare [⟨changeS, "t".data, .tup (VL [.str "b".data, .str "c".data])⟩]
        [⟨changeS, "t".data, .tup (VL [.str "a".data, .str "b".data])⟩] =
      .ok [⟨changeS, "t".data, .tup (VL [.str "a".data, .str "c".data])⟩] :=
  c1_chained_change_merge "t".data (.str "a".data) (.str "b".data) (.str "c".data) (by decide)

/-! ### Claim C2: cancellation -/

/-- C2 counterexample: for the supported one-element-list payload
`["x|y"]`, whose serialized form holds the `|` joiner, the merge of
`[Add(p, v)]` with `[Remove(p, v)]` raises inside
`_get_split_update` (`"|"`-splitting truncates the payload and
`ast.literal_eval` fails) instead of yielding a result with no element
for `p`. -/
theorem c2_cancellation_counterexample :
    diffCompare [⟨addS, "t".data, .lst (VL [.str "x|y".data])⟩]
        [⟨removeS, "t".data, .lst (VL [.str "x|y".data])⟩] = .error () ∧
      diffCompare [⟨addS, "t".data, .lst (VL [.str "x|y".data])⟩]
        [⟨removeS, "t".data, .lst (VL [.str "x|y".data])⟩] ≠ .ok [] := by
  constructor <;> decide

/-! ### Claim C3: full revert -/

/-- C3 counterexample: for the field path `a|b`, which holds the `|`
joiner, merging `[Change(p, x, y)]` with `[Change(p, y, x)]` raises
inside `_get_split_update` instead of yielding an empty result. -/
theorem c3_full_revert_counterexample :
    diffCompare [⟨changeS, "a|b".data, .tup (VL [.str "x".data, .str "y".data])⟩]
        [⟨changeS, "a|b".data, .tup (VL [.str "y".data, .str "x".data])⟩] = .error () ∧
      diffCompare [⟨changeS, "a|b".data, .tup (VL [.str "x".data, .str "y".data])⟩]
        [⟨changeS, "a|b".data, .tup (VL [.str "y".data, .str "x".data])⟩] ≠ .ok [] := by
  constructor <;> decide

/-! ### Claim C4: first match wins -/

/-- C4 counterexample: the inner loop of `DiffProcessor.compare` has no
`break`, so with `this = [Change(t, b, c)]` and
`other = [Change(t, a, b), Change(t, x, y)]` the second `other` element
also interacts: the element is rewritten a second time (to `(x, c)`,
overwriting the first match's `(a, c)`) and the second `other` element is
consumed instead of being carried forward, unlike the first-match-wins
result `[Change(t, a, c), Change(t, x, y)]`. -/
theorem c4_first_match_counterexample :
    diffCompare [⟨changeS, "t".data, .tup (VL [.str "b".data, .str "c".data])⟩]
        [⟨changeS, "t".data, .tup (VL [.str "a".data, .str "b".data])⟩,
         ⟨changeS, "t".data, .tup (VL [.str "x".data, .str "y".data])⟩] =
      .ok [⟨changeS, "t".data, .tup (VL [.str "x".data, .str "c".data])⟩] ∧
    diffCompareFM [⟨changeS, "t".data, .tup (VL [.str "b".data, .str "c".data])⟩]
        [⟨changeS, "t".data, .tup (VL [.str "a".data, .str "b".data])⟩,
         ⟨changeS, "t".data, .tup (VL [.str "x".data, .str "y".data])⟩] =
      .ok [⟨changeS, "t".data, .tup (VL [.str "a".data, .str "c".data])⟩,
           ⟨changeS, "t".data, .tup (VL [.str "x".data, .str "y".data])⟩] := by
  constructor <;> decide

/-! ### Claim C6: empty-baseline identity -/

/-- C6 counterexample: a Diff Set whose element carries an unsupported
payload shape (a bare string) is not returned unchanged by merging with
the empty set: `validate_and_cleanup` drops the element first. -/
theorem c6_empty_baseline_counterexample :
    diffCompare [⟨addS, "t".data, .str "v".data⟩] [] = .ok [] ∧
      diffCompare [⟨addS, "t".data, .str "v".data⟩] [] ≠
        .ok [⟨addS, "t".data, .str "v".data⟩] := by
  constructor <;> decide

/-- C6 amended: merging a Diff Set `D` all of whose elements pass
validation (payload a one-element list or a tuple) with an empty Diff Set
returns `D` unchanged: same elements, same payloads, same order. -/
theorem c6_empty_baseline_amended (D : List Elt) (h : ∀ e ∈ D, validateElt e = true) :
    diffCompare D [] = .ok D := by
  unfold diffCompare
  rw [procValidate_all_valid D h]
  simp only [bind, Except.bind, outerScan_other_nil]
  simp [List.foldlM, List.foldl, pure, Except.pure]

/-- Witness for the amended C6 on a two-element valid Diff Set. -/
theorem c6_witness :
    (∀ e ∈ [Elt.mk addS "t".data (.lst (VL [.str "v".data])),
            Elt.mk changeS "u".data (.tup (VL [.str "a".data, .str "b".data]))],
        validateElt e = true) ∧
      diffCompare [Elt.mk addS "t".data (.lst (VL [.str "v".data])),
            Elt.mk changeS "u".data (.tup (VL [.str "a".data, .str "b".data]))] [] =
        .ok [Elt.mk addS "t".data (.lst (VL [.str "v".data])),
            Elt.mk changeS "u".data (.tup (VL [.str "a".data, .str "b".data]))] :=
  ⟨by decide, c6_empty_baseline_amended _ (by decide)⟩

/-! ### Claim C10: top-level fail-safe -/

/-- C10: whenever the synthesis pipeline inside `process_comment`'s `try`
block fails with any exception, the entry point catches it at the top
level and returns with the single generic comment error appended to the
errors list — no exception propagates to the caller and no other outcome
escapes. -/
theorem c10_top_level_fail_safe (svc : Svc) (req : Request) (hits : List Hit)
    (diffs : List Elt) (errors : List (Option CErr)) (e : Unit)
    (h : tryProcessComment svc req hits diffs errors = .error e) :
    processComment svc req hits diffs errors = ⟨[], errors ++ [some .commentError]⟩ := by
  by_cases ho : req.isOpen <;> simp [processComment, ho, h]

/-- Witness for C10: with status `resubmitted`, an empty event log and an
empty diff, the dispatch reaches the update branch with no comment to
update and raises (`None.get("payload")`); `process_comment` converts
this to the generic comment error. -/
theorem c10_witness :
    tryProcessComment ⟨true, true⟩ ⟨true, some "resubmitted".data, some "r1".data⟩ [] [] [] =
        .error () ∧
      processComment ⟨true, true⟩ ⟨true, some "resubmitted".data, some "r1".data⟩ [] [] [] =
        ⟨[], [some .commentError]⟩ :=
  ⟨by decide,
    c10_top_level_fail_safe ⟨true, true⟩ ⟨true, some "resubmitted".data, some "r1".data⟩
      [] [] [] () (by decide)⟩

/-! ### Remaining counterexamples -/

/-- C5 counterexample: two identical never-consumed `other` elements are
carried forward only once, because `to_add` is a set of joined strings:
the merge of the empty set with `[Add(q, w), Add(q, w)]` yields one
element, not the two-element union. -/
theorem c5_ordering_counterexample :
    diffCompare [] [⟨addS, "q".data, .lst (VL [.str "w".data])⟩,
        ⟨addS, "q".data, .lst (VL [.str "w".data])⟩] =
      .ok [⟨addS, "q".data, .lst (VL [.str "w".data])⟩] ∧
    diffCompare [] [⟨addS, "q".data, .lst (VL [.str "w".data])⟩,
        ⟨addS, "q".data, .lst (VL [.str "w".data])⟩] ≠
      .ok [⟨addS, "q".data, .lst (VL [.str "w".data])⟩,
        ⟨addS, "q".data, .lst (VL [.str "w".data])⟩] := by
  constructor <;> decide

/-- C7 counterexample: a supported element whose field path holds a space
(`a b`) does not round trip: the rendered form space-joins the path and
the parser dot-joins it back, recovering the different path `a.b`. -/
theorem c7_round_trip_counterexample :
    (procToHtml [⟨addS, "a b".data, .lst (VL [.str "v".data])⟩] "resubmit".data).bind
        fromHtml =
      .ok [⟨addS, "a.b".data, .lst (VL [.str "v".data])⟩] ∧
    Elt.mk addS "a b".data (.lst (VL [.str "v".data])) ∉
      [Elt.mk addS "a.b".data (.lst (VL [.str "v".data]))] := by
  constructor <;> decide

/-- C8 counterexample: with the event log `[system comment, L(critiqued)]`
and status `resubmitted`, no system comment exists after the last
`LogEvent`, so the claim demands a brand-new comment; the code instead
finds the system comment from the earlier segment (the scan never resets
at `LogEvent`s) and updates it in place. -/
theorem c8_resubmitted_counterexample :
    processComment ⟨true, true⟩ ⟨true, some "resubmitted".data, some "r1".data⟩
        [sysCommentHit,
         ⟨some "L".data, none, some ⟨some "critiqued".data, none⟩, none, none⟩]
        [] [] =
      ⟨[.update (some "e1".data) (some "5".data) emptyResubmitHtml], [none]⟩ ∧
    ([Action.update (some "e1".data) (some "5".data) emptyResubmitHtml].all
      fun a => match a with | .create _ _ => false | _ => true) = true := by
  constructor <;> decide

/-- C9 counterexample: with status `critiqued`, a non-empty this-save
Diff Set and a most-recent event that is a `CommentEvent` authored by a
non-system user (`alice`), the code takes neither branch and does
nothing, instead of updating that comment as the claim states. -/
theorem c9_critiqued_counterexample :
    processComment ⟨true, true⟩ ⟨true, some "critiqued".data, some "r1".data⟩
        [⟨some "C".data, some (some "alice".data), some ⟨none, some emptyResubmitHtml⟩,
          some "e1".data, some "7".data⟩]
        [⟨changeS, "t".data, .tup (VL [.str "A".data, .str "B".data])⟩] [] =
      ⟨[], []⟩ := by
  decide

/-! ### Claim C4 amended: first match wins only for distinct paths -/

theorem eltCompare_unrelated (e o : Elt) (h : e.key ≠ o.key) :
    eltCompare e o = .ok (none, e) := by
  simp [eltCompare, h]

theorem eltCompare_key_eq (e o : Elt) (r : Option Bool) (e1 : Elt)
    (h : eltCompare e o = .ok (r, e1)) : e1.key = e.key := by
  unfold eltCompare at h
  repeat' split at h
  all_goals try simp_all
  all_goals (obtain ⟨h1, h2⟩ := h; subst h2; rfl)

theorem eltCompare_some_key (e o : Elt) (b : Bool) (e1 : Elt)
    (h : eltCompare e o = .ok (some b, e1)) : e.key = o.key := by
  by_contra hk
  rw [eltCompare_unrelated e o hk] at h
  simp at h

theorem innerScan_no_key (e : Elt) (os : List Elt) (skip rem : List Chars)
    (h : ∀ o ∈ os, o.key ≠ e.key) :
    innerScan e os skip rem = .ok (e, skip, rem) := by
  induction os generalizing skip rem with
  | nil => rfl
  | cons o os ih =>
    rw [innerScan, eltCompare_unrelated e o (fun hh => h o (by simp) hh.symm)]
    exact ih _ _ (fun o' ho' => h o' (by simp [ho']))

theorem innerScan_eq_FM (e : Elt) (other : List Elt) (skip rem : List Chars)
    (h : (other.map Elt.key).Nodup) :
    innerScan e other skip rem = innerScanFM e other skip rem := by
  induction other generalizing e skip rem with
  | nil => rfl
  | cons o os ih =>
    rw [innerScan, innerScanFM]
    cases hc : eltCompare e o with
    | error err => simp [hc]
    | ok pr =>
      obtain ⟨r, e1⟩ := pr
      cases r with
      | none => simp only [hc]; exact ih e1 _ _ ((List.nodup_cons.mp (by simpa using h)).2)
      | some b =>
        have hk : e1.key = o.key :=
          (eltCompare_key_eq e o (some b) e1 hc).trans (eltCompare_some_key e o b e1 hc)
        have hnomem : o.key ∉ os.map Elt.key := (List.nodup_cons.mp (by simpa using h)).1
        have hscan : ∀ skip' rem', innerScan e1 os skip' rem' = .ok (e1, skip', rem') :=
          fun skip' rem' => innerScan_no_key e1 os skip' rem'
            (fun o' ho' hh => hnomem ((hh.trans hk) ▸ List.mem_map_of_mem Elt.key ho'))
        cases b <;> simp only [hc] <;> exact hscan _ _

theorem outerScan_eq_FM (l other : List Elt) (skip rem : List Chars)
    (h : (other.map Elt.key).Nodup) :
    outerScan l other skip rem = outerScanFM l other skip rem := by
  induction l generalizing skip rem with
  | nil => rfl
  | cons e es ih =>
    rw [outerScan, outerScanFM, innerScan_eq_FM e other skip rem h]
    cases innerScanFM e other skip rem with
    | error err => rfl
    | ok t => obtain ⟨e1, skip1, rem1⟩ := t; dsimp only; rw [ih skip1 rem1]

/-- C4 amended: the scan of `DiffProcessor.compare` does not stop at the
first non-`Unrelated` result (there is no `break`): later elements of the
other set with the same field path also interact with `e` and are marked
consumed.  When the other set's field paths are pairwise distinct —
the regime the claim describes — at most one element interacts with each
`e`, and the merge coincides with the first-match-wins semantics
(`diffCompareFM`). -/
theorem c4_first_match_amended (this other : List Elt)
    (h : (other.map Elt.key).Nodup) :
    diffCompare this other = diffCompareFM this other := by
  unfold diffCompare diffCompareFM
  cases procValidate this with
  | error err => rfl
  | ok this1 =>
    simp only [bind, Except.bind, outerScan_eq_FM this1 other [] [] h]

/-- Witness for the amended C4 on sets whose other-set paths are
distinct. -/
theorem c4_witness :
    ((([Elt.mk changeS "t".data (.tup (VL [.str "a".data, .str "b".data])),
        Elt.mk changeS "u".data (.tup (VL [.str "x".data, .str "y".data]))]).map
          Elt.key).Nodup) ∧
    diffCompare [⟨changeS, "t".data, .tup (VL [.str "b".data, .str "c".data])⟩]
        [⟨changeS, "t".data, .tup (VL [.str "a".data, .str "b".data])⟩,
         ⟨changeS, "u".data, .tup (VL [.str "x".data, .str "y".data])⟩] =
      diffCompareFM [⟨changeS, "t".data, .tup (VL [.str "b".data, .str "c".data])⟩]
        [⟨changeS, "t".data, .tup (VL [.str "a".data, .str "b".data])⟩,
         ⟨changeS, "u".data, .tup (VL [.str "x".data, .str "y".data])⟩] :=
  ⟨by decide,
    c4_first_match_amended [⟨changeS, "t".data, .tup (VL [.str "b".data, .str "c".data])⟩]
      [⟨changeS, "t".data, .tup (VL [.str "a".data, .str "b".data])⟩,
       ⟨changeS, "u".data, .tup (VL [.str "x".data, .str "y".data])⟩] (by decide)⟩

/-! ### Claims C8 and C9 amended: synchronizer decision rules -/

theorem scanHits_spec (hits : List Hit) (a : Option Chars) (c : Option Hit)
    (hwf : ∀ h ∈ hits, wfHit h = true) :
    scanHits hits a c = .ok (lastLogFrom a hits, lastCommentFrom c hits) := by
  induction hits generalizing a c with
  | nil => rfl
  | cons h hs ih =>
    have hw := hwf h (by simp)
    have htail : ∀ h' ∈ hs, wfHit h' = true := fun h' hh => hwf h' (by simp [hh])
    rw [scanHits, lastLogFrom, lastCommentFrom]
    by_cases ht : h.type? = some "C".data
    · have hcb : h.createdByUser?.isSome := by
        unfold wfHit at hw
        simp [ht] at hw
        exact hw
      obtain ⟨u?, hu⟩ := Option.isSome_iff_exists.mp hcb
      by_cases hus : u? = some "system".data
      · have hic : isCommentHit h = .ok true := by simp [isCommentHit, ht, hu, hus]
        simp only [hic, ht, hu, hus]
        simp
        exact ih _ _ htail
      · have hic : isCommentHit h = .ok false := by simp [isCommentHit, ht, hu, hus]
        simp only [hic, ht, hu]
        simp [hus]
        exact ih _ _ htail
    · have hic : isCommentHit h = .ok false := by simp [isCommentHit, ht]
      simp only [hic]
      by_cases hl : h.type? = some "L".data
      · have hp : h.payload?.isSome := by
          unfold wfHit at hw
          simp [hl, ht] at hw
          exact hw
        obtain ⟨p, hp2⟩ := Option.isSome_iff_exists.mp hp
        simp only [hl, hp2, ht]
        simp [ht]
        exact ih _ _ htail
      · simp only [hl, ht]
        simp [hl, ht]
        exact ih _ _ htail

/-- C8 amended: with status `resubmitted` on an open request, the
synchronizer creates a brand-new comment rendered with label `resubmit`
if and only if the last `LogEvent`'s action is `resubmitted` or
`critiqued` and no system-authored `CommentEvent` exists **anywhere in
the event log** (the scan never resets at `LogEvent` boundaries);
otherwise it parses the last system-authored comment in the log, merges
this save's Diff Set with it, re-renders with label `resubmit`, and
updates that same event passing its prior revision id. -/
theorem c8_resubmitted_amended (svc : Svc) (req : Request) (hits : List Hit)
    (diffs : List Elt) (errors : List (Option CErr)) (rid : Chars) (h0 : Chars)
    (hopen : req.isOpen = true) (hstatus : req.status? = some "resubmitted".data)
    (hrid : req.rid? = some rid)
    (hwf : ∀ h ∈ hits, wfHit h = true)
    (hrender : procToHtml diffs "resubmit".data = .ok h0) :
    (((lastLogFrom none hits = some "resubmitted".data ∨
        lastLogFrom none hits = some "critiqued".data) ∧ lastCommentFrom none hits = none) →
      processComment svc req hits diffs errors =
        ⟨[.create rid h0], errors ++ [if svc.createOk then none else some .commentError]⟩) ∧
    (∀ c base merged h1,
      ¬((lastLogFrom none hits = some "resubmitted".data ∨
          lastLogFrom none hits = some "critiqued".data) ∧ lastCommentFrom none hits = none) →
      lastCommentFrom none hits = some c →
      parseCommentContent c = .ok base →
      diffCompare diffs base = .ok merged →
      procToHtml merged "resubmit".data = .ok h1 →
      processComment svc req hits diffs errors =
        ⟨[.update c.id? c.revisionId? h1],
          errors ++ [if svc.updateOk then none else some .commentError]⟩) := by
  constructor
  · intro hcond
    unfold processComment
    rw [if_neg (by rw [hopen]; simp)]
    unfold tryProcessComment
    rw [hstatus]
    simp only [pyItem, bind, Except.bind, scanHits_spec hits none none hwf]
    simp only [if_true]
    rw [if_pos hcond, hrender]
    simp only [bind, Except.bind, createNewComment, hrid]
    cases hsvc : svc.createOk <;> simp [pure, Except.pure]
  · intro c base merged h1 hncond hc hparse hmerge hrender1
    unfold processComment
    rw [if_neg (by rw [hopen]; simp)]
    unfold tryProcessComment
    rw [hstatus]
    simp only [pyItem, bind, Except.bind, scanHits_spec hits none none hwf]
    simp only [if_true]
    rw [if_neg hncond, hc]
    simp only [bind, Except.bind, hparse, hmerge, hrender1, pure, Except.pure]
    simp only [updateExistingComment]
    cases hsvc : svc.updateOk <;> simp [pure, Except.pure]

/-- Witness for the amended C8: log `[LogEvent(critiqued)]` with no
comment leads to a brand-new comment with the `resubmit` rendering. -/
theorem c8_witness :
    processComment ⟨true, true⟩ ⟨true, some "resubmitted".data, some "r1".data⟩
        [⟨some "L".data, none, some ⟨some "critiqued".data, none⟩, none, none⟩] [] [] =
      ⟨[.create "r1".data emptyResubmitHtml], [none]⟩ := by
  have := (c8_resubmitted_amended ⟨true, true⟩ ⟨true, some "resubmitted".data, some "r1".data⟩
    [⟨some "L".data, none, some ⟨some "critiqued".data, none⟩, none, none⟩] [] []
    "r1".data emptyResubmitHtml rfl rfl rfl (by decide) (by decide)).1 ⟨by decide, by decide⟩
  simpa using this

/-- C9 amended: with status `critiqued`, a non-empty this-save Diff Set
and the most recent event-log entry a **system-authored** `CommentEvent`,
the synchronizer parses that comment's content, merges this save's Diff
Set with the recovered one, re-renders with label
`update_while_critiqued`, and updates that same event in place with its
prior revision id rather than creating a new comment. -/
theorem c9_critiqued_amended (svc : Svc) (req : Request) (hits : List Hit)
    (diffs : List Elt) (errors : List (Option CErr)) (last : Hit)
    (base merged : List Elt) (h1 : Chars)
    (hopen : req.isOpen = true) (hstatus : req.status? = some "critiqued".data)
    (hne : diffs ≠ [])
    (hlast : hits.getLast? = some last)
    (htype : last.type? = some "C".data)
    (huser : last.createdByUser? = some (some "system".data))
    (hparse : parseCommentContent last = .ok base)
    (hmerge : diffCompare diffs base = .ok merged)
    (hrender : procToHtml merged "update_while_critiqued".data = .ok h1) :
    processComment svc req hits diffs errors =
      ⟨[.update last.id? last.revisionId? h1],
        errors ++ [if svc.updateOk then none else some .commentError]⟩ := by
  have hpos : diffs.length > 0 := List.length_pos.mpr hne
  unfold processComment
  rw [if_neg (by rw [hopen]; simp)]
  unfold tryProcessComment
  rw [hstatus]
  simp only [pyItem, bind, Except.bind, pure, Except.pure]
  simp only [hlast, htype]
  simp [hpos]
  rw [show isCommentHit last = .ok true from by simp [isCommentHit, htype, huser]]
  simp only [bind, Except.bind, hparse, hmerge, hrender, pure, Except.pure]
  simp only [updateExistingComment]
  cases hsvc : svc.updateOk <;> simp [pure, Except.pure]

/-- Witness for the amended C9: the rolling comment at the end of the log
is parsed, merged with `[Change(t, A, B)]` and updated in place. -/
theorem c9_witness :
    processComment ⟨true, true⟩ ⟨true, some "critiqued".data, some "r1".data⟩
        [sysCommentHit] [⟨changeS, "t".data, .tup (VL [.str "A".data, .str "B".data])⟩] [] =
      ⟨[.update (some "e1".data) (some "5".data) critUpdateHtml], [none]⟩ := by
  have := c9_critiqued_amended ⟨true, true⟩ ⟨true, some "critiqued".data, some "r1".data⟩
    [sysCommentHit] [⟨changeS, "t".data, .tup (VL [.str "A".data, .str "B".data])⟩] []
    sysCommentHit [] [⟨changeS, "t".data, .tup (VL [.str "A".data, .str "B".data])⟩]
    critUpdateHtml rfl rfl (by decide) (by decide) (by decide) (by decide) (by decide)
    (by decide) (by decide)
  simpa [sysCommentHit] using this

/-! ### String and serialization lemmas -/

theorem cleanCharB_spec (c : Char) (h : cleanCharB c = true) :
    32 ≤ c.toNat ∧ c.toNat ≤ 126 ∧ c ≠ sqC ∧ c ≠ dqC ∧ c ≠ bsC ∧ c ≠ ltC ∧
      c ≠ gtC ∧ c ≠ ampC ∧ c ≠ barC := by
  simp [cleanCharB] at h
  tauto

theorem cleanChar_ne_of_small (c : Char) (h32 : 32 ≤ c.toNat) (d : Char)
    (hd : d.toNat < 32) : c ≠ d := by
  intro hh
  rw [hh] at h32
  omega

theorem reprEscChar_clean (c : Char) (h : cleanCharB c = true) : reprEscChar sqC c = [c] := by
  obtain ⟨h32, h126, hsq, _, hbs, _⟩ := cleanCharB_spec c h
  unfold reprEscChar
  rw [if_neg hbs, if_neg hsq,
    if_neg (cleanChar_ne_of_small c h32 nlC (by decide)),
    if_neg (cleanChar_ne_of_small c h32 tabC (by decide)),
    if_neg (cleanChar_ne_of_small c h32 crC (by decide)),
    if_neg (by omega)]

theorem flatMap_id (s : Chars) (f : Char → Chars) (h : ∀ c ∈ s, f c = [c]) :
    s.flatMap f = s := by
  induction s with
  | nil => rfl
  | cons c cs ih =>
    simp only [List.flatMap_cons, h c (by simp)]
    rw [ih (fun c' hc' => h c' (by simp [hc']))]
    rfl

theorem reprStr_clean (s : Chars) (h : s.all cleanCharB = true) :
    reprStr s = sqC :: s ++ [sqC] := by
  have hsq : ¬ sqC ∈ s := fun hm =>
    (cleanCharB_spec _ (List.all_eq_true.mp h _ hm)).2.2.1 rfl
  unfold reprStr
  simp only [if_neg (fun hc : sqC ∈ s ∧ ¬ dqC ∈ s => hsq hc.1)]
  rw [flatMap_id s _ (fun c hc => reprEscChar_clean c (List.all_eq_true.mp h _ hc))]

theorem scanStr_clean (s : Chars) (rest : Chars) (h : s.all cleanCharB = true) :
    scanStr sqC (s ++ sqC :: rest) = .ok (s, rest) := by
  induction s with
  | nil =>
    unfold scanStr
    simp
  | cons c cs ih =>
    obtain ⟨_, _, hsq, _, hbs, _⟩ := cleanCharB_spec c (by simp at h; exact h.1)
    rw [List.cons_append]
    unfold scanStr
    rw [if_neg hsq, if_neg hbs,
      ih (by simp at h; simp [List.all_eq_true]; exact fun c hc => h.2 c hc)]

theorem splitOnChar_ne_nil (sep : Char) (s : Chars) : splitOnChar sep s ≠ [] := by
  cases s with
  | nil => simp [splitOnChar]
  | cons c cs =>
    unfold splitOnChar
    by_cases hc : c = sep
    · simp [hc]
    · simp only [if_neg hc]
      cases splitOnChar sep cs <;> simp

theorem splitOnChar_append (sep : Char) (a b : Chars) :
    splitOnChar sep (a ++ sep :: b) = splitOnChar sep a ++ splitOnChar sep b := by
  induction a with
  | nil => simp [splitOnChar]
  | cons c cs ih =>
    simp only [List.cons_append, splitOnChar, List.append_eq]
    by_cases hc : c = sep
    · simp [hc, ih]
    · simp only [if_neg hc, ih]
      cases hs : splitOnChar sep cs with
      | nil => exact absurd hs (splitOnChar_ne_nil sep cs)
      | cons r rs => simp

theorem splitOnChar_no_sep (sep : Char) (s : Chars) (h : ¬ sep ∈ s) :
    splitOnChar sep s = [s] := by
  induction s with
  | nil => rfl
  | cons c cs ih =>
    unfold splitOnChar
    rw [if_neg (fun hh => h (by simp [hh])), ih (fun hh => h (by simp [hh]))]

theorem dropWhile_append_all (p : Char → Bool) (a b : Chars) (h : a.all p = true) :
    (a ++ b).dropWhile p = b.dropWhile p := by
  induction a with
  | nil => rfl
  | cons c cs ih =>
    simp at h
    simp [List.dropWhile_cons, h.1, ih (by simp [List.all_eq_true]; exact fun x hx => h.2 x hx)]

theorem joinWith_split_replace (c1 c2 : Char) (k : Chars) :
    joinWith [c2] (splitOnChar c1 k) = k.map (fun c => if c = c1 then c2 else c) := by
  induction k with
  | nil => rfl
  | cons c cs ih =>
    unfold splitOnChar
    by_cases hc : c = c1
    · rw [if_pos hc]
      cases hs : splitOnChar c1 cs with
      | nil => exact absurd hs (splitOnChar_ne_nil c1 cs)
      | cons r rs =>
        have hj : joinWith [c2] ([] :: r :: rs) = [c2] ++ joinWith [c2] (r :: rs) := rfl
        rw [hj]
        simp only [List.singleton_append, List.map_cons, if_pos hc]
        rw [← ih, hs]
    · rw [if_neg hc]
      cases hs : splitOnChar c1 cs with
      | nil => exact absurd hs (splitOnChar_ne_nil c1 cs)
      | cons r rs =>
        cases rs with
        | nil =>
          simp only [joinWith, List.map_cons, if_neg hc]
          rw [← ih, hs]
          rfl
        | cons r2 rs2 =>
          simp only [joinWith, List.map_cons, if_neg hc]
          rw [← ih, hs]
          simp [joinWith]

theorem key_round_trip (k : Chars) (h : cleanKeyB k = true) :
    dottedKey (spacedKey k) = k := by
  unfold dottedKey spacedKey
  rw [joinWith_split_replace dotC spC k, joinWith_split_replace spC dotC _, List.map_map]
  have hmc : ∀ c ∈ k,
      ((fun c => if c = spC then dotC else c) ∘ (fun c => if c = dotC then spC else c)) c = c := by
    intro c hc
    have hsp : ¬ c = spC := by
      have := List.all_eq_true.mp h c hc
      simp at this
      exact this.2
    by_cases hd : c = dotC
    · simp [hd]
    · simp [hd, hsp]
  rw [List.map_congr_left hmc]
  simp

theorem pyRepr_vcons (h t : Value) (ht : t ≠ Value.vnil) :
    pyRepr (.vcons h t) = pyRepr h ++ [commaC, spC] ++ pyRepr t := by
  cases t <;> first | (exact absurd rfl ht) | rfl

theorem pyRepr_tup_big (i : Value) (h1 : i ≠ .vnil) (h2 : ∀ x, i ≠ .vcons x .vnil) :
    pyRepr (.tup i) = lpC :: pyRepr i ++ [rpC] := by
  cases i with
  | vnil => exact absurd rfl h1
  | vcons x t =>
    cases t <;> first | (exact absurd rfl (h2 x)) | rfl
  | _ => rfl

theorem pyRepr_chars_clean (v : Value) (hc : cleanV v = true) :
    ∀ d ∈ pyRepr v, cleanCharB d = true ∨ d ∈ reprStruct := by
  induction v with
  | str s =>
    unfold cleanV at hc
    rw [pyRepr, reprStr_clean s hc]
    intro d hd
    rcases List.mem_cons.mp hd with h1 | h2
    · right; rw [h1]; decide
    · rcases List.mem_append.mp h2 with h3 | h4
      · exact Or.inl (List.all_eq_true.mp hc d h3)
      · right; rw [List.mem_singleton.mp h4]; decide
  | vnil => intro d hd; exact absurd hd (by simp [pyRepr])
  | vcons h t ihh iht =>
    unfold cleanV at hc
    rw [Bool.and_eq_true] at hc
    by_cases ht : t = Value.vnil
    · subst ht
      rw [pyRepr]
      exact ihh hc.1
    · rw [pyRepr_vcons h t ht]
      intro d hd
      rcases List.mem_append.mp hd with h12 | h3
      · rcases List.mem_append.mp h12 with h1 | h2
        · exact ihh hc.1 d h1
        · rcases List.mem_cons.mp h2 with hh | hh
          · right; rw [hh]; decide
          · right; rw [List.mem_singleton.mp hh]; decide
      · exact iht hc.2 d h3
  | kv k v ih =>
    unfold cleanV at hc
    rw [Bool.and_eq_true] at hc
    rw [pyRepr, reprStr_clean k hc.1]
    intro d hd
    rcases List.mem_append.mp hd with h12 | h3
    · rcases List.mem_append.mp h12 with h1 | h2
      · rcases List.mem_cons.mp h1 with hh | hh
        · right; rw [hh]; decide
        · rcases List.mem_append.mp hh with h5 | h6
          · exact Or.inl (List.all_eq_true.mp hc.1 d h5)
          · right; rw [List.mem_singleton.mp h6]; decide
      · rcases List.mem_cons.mp h2 with hh | hh
        · right; rw [hh]; decide
        · right; rw [List.mem_singleton.mp hh]; decide
    · exact ih hc.2 d h3
  | tup i ih =>
    unfold cleanV at hc
    by_cases h1 : i = Value.vnil
    · subst h1; intro d hd; right
      rcases List.mem_cons.mp hd with hh | hh
      · rw [hh]; decide
      · rw [List.mem_singleton.mp hh]; decide
    · by_cases h2 : ∃ x, i = Value.vcons x Value.vnil
      · obtain ⟨x, hx⟩ := h2
        subst hx
        rw [pyRepr]
        intro d hd
        rcases List.mem_cons.mp hd with hh | hh
        · right; rw [hh]; decide
        · rcases List.mem_append.mp hh with h3 | h4
          · have : pyRepr (Value.vcons x Value.vnil) = pyRepr x := rfl
            exact ih hc d (this ▸ h3)
          · rcases List.mem_cons.mp h4 with h5 | h6
            · right; rw [h5]; decide
            · right; rw [List.mem_singleton.mp h6]; decide
      · rw [pyRepr_tup_big i h1 (fun x hx => h2 ⟨x, hx⟩)]
        intro d hd
        rcases List.mem_cons.mp hd with hh | hh
        · right; rw [hh]; decide
        · rcases List.mem_append.mp hh with h3 | h4
          · exact ih hc d h3
          · right; rw [List.mem_singleton.mp h4]; decide
  | lst i ih =>
    unfold cleanV at hc
    rw [pyRepr]
    intro d hd
    rcases List.mem_cons.mp hd with hh | hh
    · right; rw [hh]; decide
    · rcases List.mem_append.mp hh with h3 | h4
      · exact ih hc d h3
      · right; rw [List.mem_singleton.mp h4]; decide
  | dict i ih =>
    unfold cleanV at hc
    rw [pyRepr]
    intro d hd
    rcases List.mem_cons.mp hd with hh | hh
    · right; rw [hh]; decide
    · rcases List.mem_append.mp hh with h3 | h4
      · exact ih hc d h3
      · right; rw [List.mem_singleton.mp h4]; decide

theorem not_mem_pyRepr (v : Value) (hc : cleanV v = true) (d : Char)
    (hd1 : cleanCharB d = false) (hd2 : ¬ d ∈ reprStruct) : ¬ d ∈ pyRepr v := by
  intro hm
  rcases pyRepr_chars_clean v hc d hm with h | h
  · rw [hd1] at h; exact Bool.noConfusion h
  · exact hd2 h

theorem pyRepr_head (v : Value) (hw : wfV v = true) :
    ∃ c cs, pyRepr v = c :: cs ∧ (c = sqC ∨ c = dqC ∨ c = lpC ∨ c = lkC ∨ c = lbC) := by
  cases v with
  | str s =>
    unfold pyRepr reprStr
    by_cases hq : sqC ∈ s ∧ ¬ dqC ∈ s
    · exact ⟨dqC, s.flatMap (reprEscChar dqC) ++ [dqC], by simp [hq], by simp⟩
    · exact ⟨sqC, s.flatMap (reprEscChar sqC) ++ [sqC], by simp [hq], by simp⟩
  | vnil => exact absurd hw (by simp [wfV, wfM])
  | vcons h t => exact absurd hw (by simp [wfV, wfM])
  | kv k v => exact absurd hw (by simp [wfV, wfM])
  | tup i =>
    refine ⟨lpC, ?_, ?_, by simp⟩
    · exact (pyRepr (.tup i)).tail
    · cases i with
      | vnil => rfl
      | vcons x t => cases t <;> rfl
      | _ => rfl
  | lst i => exact ⟨lkC, _, rfl, by simp⟩
  | dict i => exact ⟨lbC, _, rfl, by simp⟩

theorem tok_facts (c : Char) (h : c = sqC ∨ c = dqC ∨ c = lpC ∨ c = lkC ∨ c = lbC) :
    isPyWs c = false ∧ c ≠ rpC ∧ c ≠ rkC ∧ c ≠ rbC ∧ c ≠ commaC := by
  rcases h with h | h | h | h | h <;> subst h <;>
    exact ⟨by decide, by decide, by decide, by decide, by decide⟩

theorem two_le_reprStr_len (s : Chars) : 2 ≤ (reprStr s).length := by
  unfold reprStr
  simp

theorem two_le_pyRepr_len (v : Value) (hw : wfV v = true) : 2 ≤ (pyRepr v).length := by
  cases v with
  | str s => exact two_le_reprStr_len s
  | vnil => exact absurd hw (by simp [wfV, wfM])
  | vcons h t => exact absurd hw (by simp [wfV, wfM])
  | kv k v => exact absurd hw (by simp [wfV, wfM])
  | tup i =>
    cases i with
    | vnil => simp [pyRepr]
    | vcons x t => cases t <;> (simp [pyRepr]; try omega)
    | _ => (simp [pyRepr]; try omega)
  | lst i => simp [pyRepr]
  | dict i => simp [pyRepr]

theorem needF_vnil : needF Value.vnil = 1 := rfl

theorem needF_str (s : Chars) : needF (.str s) = 1 := rfl

theorem needF_kv (k : Chars) (w : Value) : needF (.kv k w) = 1 + needF w := rfl

theorem needF_tup (i : Value) : needF (.tup i) = 1 + needF i := rfl

theorem needF_lst (i : Value) : needF (.lst i) = 1 + needF i := rfl

theorem needF_dict (i : Value) : needF (.dict i) = 1 + needF i := rfl

theorem needF_vcons (h t : Value) : needF (.vcons h t) = 1 + max (needF h) (needF t) := rfl

theorem needF_vcons_le (h t : Value) (K : Nat) (hh : needF h ≤ K) (ht : needF t ≤ K) :
    needF (.vcons h t) ≤ K + 1 := by
  rw [needF_vcons]
  have := Nat.max_le.mpr ⟨hh, ht⟩
  omega

theorem needF_bound (v : Value) :
    (wfV v = true → needF v ≤ 2 * (pyRepr v).length) ∧
    (wfM .seq v = true → needF v ≤ 2 * (pyRepr v).length + 2) ∧
    (wfM .kvs v = true → needF v ≤ 2 * (pyRepr v).length + 2) ∧
    (∀ k w, v = Value.kv k w → wfV w = true → needF v ≤ 2 * (pyRepr v).length) := by
  induction v with
  | str s =>
    refine ⟨fun _ => ?_, fun h => absurd h (by simp [wfM]), fun h => absurd h (by simp [wfM]),
      fun k w hh => Value.noConfusion hh⟩
    have := two_le_reprStr_len s
    rw [needF_str]
    unfold pyRepr
    omega
  | vnil =>
    refine ⟨fun h => absurd h (by simp [wfV, wfM]), fun _ => ?_, fun _ => ?_,
      fun k w hh => Value.noConfusion hh⟩ <;> simp [needF_vnil, pyRepr]
  | vcons h t ihh iht =>
    refine ⟨fun hw => absurd hw (by simp [wfV, wfM]), fun hw => ?_, fun hw => ?_,
      fun k w hh => Value.noConfusion hh⟩
    · unfold wfM at hw
      rw [Bool.and_eq_true] at hw
      have hh1 := ihh.1 hw.1
      have hlen := two_le_pyRepr_len h hw.1
      by_cases ht : t = Value.vnil
      · subst ht
        rw [pyRepr]
        have := needF_vcons_le h Value.vnil (2 * (pyRepr h).length)
          hh1 (by rw [needF_vnil]; omega)
        omega
      · have ht2 := iht.2.1 hw.2
        rw [pyRepr_vcons h t ht]
        have := needF_vcons_le h t (2 * ((pyRepr h).length + 2 + (pyRepr t).length) + 1)
          (by omega) (by omega)
        simp only [List.length_append, List.length_cons, List.length_nil]
        omega
    · unfold wfM at hw
      cases h with
      | kv k w =>
        rw [Bool.and_eq_true] at hw
        have hkv := ihh.2.2.2 k w rfl hw.1
        have hlen : 2 ≤ (pyRepr (Value.kv k w)).length := by
          unfold pyRepr
          have := two_le_reprStr_len k
          simp only [List.length_append, List.length_cons, List.length_nil]
          omega
        by_cases ht : t = Value.vnil
        · subst ht
          rw [pyRepr]
          have := needF_vcons_le (Value.kv k w) Value.vnil (2 * (pyRepr (Value.kv k w)).length)
            hkv (by rw [needF_vnil]; omega)
          omega
        · have ht2 := iht.2.2.1 hw.2
          rw [pyRepr_vcons _ t ht]
          have := needF_vcons_le (Value.kv k w) t
            (2 * ((pyRepr (Value.kv k w)).length + 2 + (pyRepr t).length) + 1)
            (by omega) (by omega)
          simp only [List.length_append, List.length_cons, List.length_nil]
          omega
      | str s => exact absurd hw (by simp)
      | vnil => exact absurd hw (by simp)
      | vcons a b => exact absurd hw (by simp)
      | tup i => exact absurd hw (by simp)
      | lst i => exact absurd hw (by simp)
      | dict i => exact absurd hw (by simp)
  | kv k w ih =>
    refine ⟨fun hw => absurd hw (by simp [wfV, wfM]), fun hw => absurd hw (by simp [wfM]),
      fun hw => absurd hw (by simp [wfM]), fun k' w' hh hww => ?_⟩
    cases hh
    have h1 := ih.1 hww
    have h2 := two_le_reprStr_len k
    rw [needF_kv]
    unfold pyRepr
    simp only [List.length_append, List.length_cons, List.length_nil]
    omega
  | tup i ih =>
    refine ⟨fun hw => ?_, fun hw => absurd hw (by simp [wfM]),
      fun hw => absurd hw (by simp [wfM]), fun k w hh => Value.noConfusion hh⟩
    unfold wfV wfM at hw
    have hseq := ih.2.1 hw
    rw [needF_tup]
    cases i with
    | vnil => rw [needF_vnil]; simp [pyRepr]
    | vcons x t =>
      cases t with
      | vnil =>
        rw [show pyRepr (Value.tup (Value.vcons x Value.vnil)) =
          lpC :: pyRepr x ++ [commaC, rpC] from rfl]
        rw [show pyRepr (Value.vcons x Value.vnil) = pyRepr x from rfl] at hseq
        simp only [List.length_cons, List.length_append, List.length_nil]
        omega
      | _ =>
        rw [pyRepr_tup_big _ (by simp) (by intro x2; simp)]
        simp only [List.length_cons, List.length_append, List.length_nil]
        omega
    | str s => simp [wfM] at hw
    | kv a b => simp [wfM] at hw
    | tup j => simp [wfM] at hw
    | lst j => simp [wfM] at hw
    | dict j => simp [wfM] at hw
  | lst i ih =>
    refine ⟨fun hw => ?_, fun hw => absurd hw (by simp [wfM]),
      fun hw => absurd hw (by simp [wfM]), fun k w hh => Value.noConfusion hh⟩
    unfold wfV wfM at hw
    have hseq := ih.2.1 hw
    rw [needF_lst, pyRepr]
    simp only [List.length_cons, List.length_append, List.length_nil]
    omega
  | dict i ih =>
    refine ⟨fun hw => ?_, fun hw => absurd hw (by simp [wfM]),
      fun hw => absurd hw (by simp [wfM]), fun k w hh => Value.noConfusion hh⟩
    unfold wfV wfM at hw
    have hseq := ih.2.2.1 hw
    rw [needF_dict, pyRepr]
    simp only [List.length_cons, List.length_append, List.length_nil]
    omega

theorem one_le_needF (v : Value) : 1 ≤ needF v := by
  cases v <;> simp [needF]

theorem reprStr_head (s : Chars) :
    ∃ q qs, reprStr s = q :: qs ∧ (q = sqC ∨ q = dqC) := by
  unfold reprStr
  by_cases hq : sqC ∈ s ∧ ¬ dqC ∈ s
  · exact ⟨dqC, s.flatMap (reprEscChar dqC) ++ [dqC], by simp [hq], by simp⟩
  · exact ⟨sqC, s.flatMap (reprEscChar sqC) ++ [sqC], by simp [hq], by simp⟩

theorem spine_head (t : Value) (hw : wfM .seq t = true) (ht : t ≠ .vnil) :
    ∃ e er, pyRepr t = e :: er ∧ (e = sqC ∨ e = dqC ∨ e = lpC ∨ e = lkC ∨ e = lbC) := by
  cases t with
  | vnil => exact absurd rfl ht
  | vcons h t' =>
    unfold wfM at hw
    rw [Bool.and_eq_true] at hw
    obtain ⟨e, er, heq, htok⟩ := pyRepr_head h hw.1
    by_cases ht' : t' = Value.vnil
    · subst ht'
      exact ⟨e, er, by rw [pyRepr, heq], htok⟩
    · exact ⟨e, er ++ [commaC, spC] ++ pyRepr t', by rw [pyRepr_vcons h t' ht', heq]; simp, htok⟩
  | str s => simp [wfM] at hw
  | kv k w => simp [wfM] at hw
  | tup i => simp [wfM] at hw
  | lst i => simp [wfM] at hw
  | dict i => simp [wfM] at hw

theorem kvs_head (t : Value) (hw : wfM .kvs t = true) (ht : t ≠ .vnil) :
    ∃ e er, pyRepr t = e :: er ∧ (e = sqC ∨ e = dqC) := by
  cases t with
  | vnil => exact absurd rfl ht
  | vcons h t' =>
    cases h with
    | kv k w =>
      obtain ⟨q, qs, heq, htok⟩ := reprStr_head k
      by_cases ht' : t' = Value.vnil
      · subst ht'
        refine ⟨q, qs ++ [colonC, spC] ++ pyRepr w, ?_, htok⟩
        rw [pyRepr, pyRepr, heq]
        simp
      · refine ⟨q, qs ++ [colonC, spC] ++ pyRepr w ++ [commaC, spC] ++ pyRepr t', ?_, htok⟩
        rw [pyRepr_vcons _ t' ht', pyRepr, heq]
        simp
    | str s => simp [wfM] at hw
    | vnil => simp [wfM] at hw
    | vcons a b => simp [wfM] at hw
    | tup i => simp [wfM] at hw
    | lst i => simp [wfM] at hw
    | dict i => simp [wfM] at hw
  | str s => simp [wfM] at hw
  | kv k w => simp [wfM] at hw
  | tup i => simp [wfM] at hw
  | lst i => simp [wfM] at hw
  | dict i => simp [wfM] at hw

theorem dropWhile_head_not_ws (c : Char) (cs : Chars) (hc : isPyWs c = false) :
    (c :: cs).dropWhile isPyWs = c :: cs := by
  simp [List.dropWhile_cons, hc]

theorem parse_repr_inv : ∀ n : Nat,
    (∀ v rest, wfV v = true → cleanV v = true → needF v ≤ n →
      parseF n .one (pyRepr v ++ rest) = .ok (v, rest)) ∧
    (∀ close sp rest, (close = rpC ∨ close = rkC) → wfM .seq sp = true → cleanV sp = true →
      needF sp ≤ n → parseF n (.seq close) (pyRepr sp ++ close :: rest) = .ok (sp, rest)) ∧
    (∀ sp rest, wfM .kvs sp = true → cleanV sp = true → needF sp ≤ n →
      parseF n .kvs (pyRepr sp ++ rbC :: rest) = .ok (sp, rest)) := by
  intro n
  induction n using Nat.strong_induction_on with
  | _ n ih =>
    cases n with
    | zero =>
      refine ⟨fun v rest _ _ hn => ?_, fun close sp rest _ _ _ hn => ?_,
        fun sp rest _ _ hn => ?_⟩ <;>
        exact absurd hn (by have := one_le_needF (by assumption); omega)
    | succ m =>
      refine ⟨?_, ?_, ?_⟩
      · intro v rest hw hcl hn
        cases v with
        | str s =>
          unfold cleanV at hcl
          rw [pyRepr, reprStr_clean s hcl]
          have h1 : ((sqC :: s ++ [sqC]) ++ rest).dropWhile isPyWs = sqC :: (s ++ sqC :: rest) := by
            rw [show ((sqC :: s ++ [sqC]) ++ rest) = sqC :: (s ++ sqC :: rest) from by simp]
            exact dropWhile_head_not_ws _ _ (by decide)
          simp only [parseF, h1]
          rw [if_pos (Or.inl trivial), scanStr_clean s rest hcl]
        | vnil => exact absurd hw (by simp [wfV, wfM])
        | vcons h t => exact absurd hw (by simp [wfV, wfM])
        | kv k w => exact absurd hw (by simp [wfV, wfM])
        | tup i =>
          unfold wfV wfM at hw
          unfold cleanV at hcl
          have hm1 : 1 ≤ m := by
            have h2 := one_le_needF i
            rw [needF_tup] at hn
            omega
          cases i with
          | vnil =>
            have h1 : ((pyRepr (Value.tup Value.vnil)) ++ rest).dropWhile isPyWs =
                lpC :: (rpC :: rest) := by
              exact dropWhile_head_not_ws _ _ (by decide)
            simp only [parseF, h1]
            rw [if_neg (by decide : ¬ (lpC = sqC ∨ lpC = dqC))]
            rw [if_pos trivial]
            have hrec := (ih m (by omega)).2.1 rpC Value.vnil rest (Or.inl rfl) (by rfl) (by rfl)
              (by rw [needF_vnil]; omega)
            simp only [pyRepr, List.nil_append] at hrec
            simp only [hrec]
          | vcons x t =>
            cases t with
            | vnil =>
              have hwx : wfV x = true := by
                unfold wfM at hw
                rw [Bool.and_eq_true] at hw
                exact hw.1
              have hclx : cleanV x = true := by
                unfold cleanV at hcl
                rw [Bool.and_eq_true] at hcl
                exact hcl.1
              rw [show pyRepr (Value.tup (Value.vcons x Value.vnil)) =
                lpC :: pyRepr x ++ [commaC, rpC] from rfl]
              have h1 : ((lpC :: pyRepr x ++ [commaC, rpC]) ++ rest).dropWhile isPyWs =
                  lpC :: (pyRepr x ++ commaC :: rpC :: rest) := by
                rw [show ((lpC :: pyRepr x ++ [commaC, rpC]) ++ rest) =
                  lpC :: (pyRepr x ++ commaC :: rpC :: rest) from by simp]
                exact dropWhile_head_not_ws _ _ (by decide)
              simp only [parseF, h1]
              rw [if_neg (by decide : ¬ (lpC = sqC ∨ lpC = dqC))]
              rw [if_pos trivial]
              cases m with
              | zero => omega
              | succ m2 =>
                obtain ⟨cx, csx, hx, htokx⟩ := pyRepr_head x hwx
                have h2 : (pyRepr x ++ commaC :: rpC :: rest).dropWhile isPyWs =
                    cx :: (csx ++ commaC :: rpC :: rest) := by
                  rw [hx, List.cons_append]
                  exact dropWhile_head_not_ws _ _ (tok_facts cx htokx).1
                simp only [parseF, h2]
                rw [if_neg (tok_facts cx htokx).2.1]
                have hone := (ih m2 (by omega)).1 x (commaC :: rpC :: rest) hwx hclx (by
                  rw [needF_tup, needF_vcons, needF_vnil] at hn
                  have := Nat.le_max_left (needF x) 1
                  omega)
                rw [show cx :: (csx ++ commaC :: rpC :: rest) =
                  pyRepr x ++ commaC :: rpC :: rest from by rw [hx]; simp]
                simp only [hone]
                simp only [dropWhile_head_not_ws commaC (rpC :: rest) (by decide)]
                rw [if_pos trivial]
                simp only [dropWhile_head_not_ws rpC rest (by decide)]
                rw [if_neg (by decide : ¬ commaC = rpC)]
                rw [if_pos trivial]
            | str s2 => simp [wfM] at hw
            | vcons a b =>
              rw [pyRepr_tup_big _ (by simp) (by intro x2; simp)]
              have h1 : ((lpC :: pyRepr (Value.vcons x (Value.vcons a b)) ++ [rpC]) ++
                  rest).dropWhile isPyWs =
                  lpC :: (pyRepr (Value.vcons x (Value.vcons a b)) ++ rpC :: rest) := by
                rw [show ((lpC :: pyRepr (Value.vcons x (Value.vcons a b)) ++ [rpC]) ++ rest) =
                  lpC :: (pyRepr (Value.vcons x (Value.vcons a b)) ++ rpC :: rest) from by simp]
                exact dropWhile_head_not_ws _ _ (by decide)
              simp only [parseF, h1]
              rw [if_neg (by decide : ¬ (lpC = sqC ∨ lpC = dqC))]
              rw [if_pos trivial]
              simp only [(ih m (by omega)).2.1 rpC (Value.vcons x (Value.vcons a b)) rest (Or.inl rfl)
                hw hcl (by rw [needF_tup] at hn; omega)]
            | kv k2 w2 => simp [wfM] at hw
            | tup j => simp [wfM] at hw
            | lst j => simp [wfM] at hw
            | dict j => simp [wfM] at hw
          | str s => simp [wfM] at hw
          | kv k w => simp [wfM] at hw
          | tup j => simp [wfM] at hw
          | lst j => simp [wfM] at hw
          | dict j => simp [wfM] at hw
        | lst i =>
          unfold wfV wfM at hw
          unfold cleanV at hcl
          rw [pyRepr]
          have h1 : ((lkC :: pyRepr i ++ [rkC]) ++ rest).dropWhile isPyWs =
              lkC :: (pyRepr i ++ rkC :: rest) := by
            rw [show ((lkC :: pyRepr i ++ [rkC]) ++ rest) =
              lkC :: (pyRepr i ++ rkC :: rest) from by simp]
            exact dropWhile_head_not_ws _ _ (by decide)
          simp only [parseF, h1]
          rw [if_neg (by decide : ¬ (lkC = sqC ∨ lkC = dqC))]
          rw [if_neg (by decide : ¬ lkC = lpC)]
          rw [if_pos trivial]
          simp only [(ih m (by omega)).2.1 rkC i rest (Or.inr rfl) hw hcl
            (by rw [needF_lst] at hn; omega)]
        | dict i =>
          unfold wfV wfM at hw
          unfold cleanV at hcl
          rw [pyRepr]
          have h1 : ((lbC :: pyRepr i ++ [rbC]) ++ rest).dropWhile isPyWs =
              lbC :: (pyRepr i ++ rbC :: rest) := by
            rw [show ((lbC :: pyRepr i ++ [rbC]) ++ rest) =
              lbC :: (pyRepr i ++ rbC :: rest) from by simp]
            exact dropWhile_head_not_ws _ _ (by decide)
          simp only [parseF, h1]
          rw [if_neg (by decide : ¬ (lbC = sqC ∨ lbC = dqC))]
          rw [if_neg (by decide : ¬ lbC = lpC)]
          rw [if_neg (by decide : ¬ lbC = lkC)]
          rw [if_pos trivial]
          simp only [(ih m (by omega)).2.2 i rest hw hcl (by rw [needF_dict] at hn; omega)]
      · intro close sp rest hclose hw hcl hn
        have hcw : isPyWs close = false := by
          rcases hclose with hc | hc <;> subst hc <;> decide
        cases sp with
        | vnil =>
          rw [show pyRepr Value.vnil ++ close :: rest = close :: rest from by
            rw [pyRepr]; rfl]
          simp only [parseF, dropWhile_head_not_ws close rest hcw]
          rw [if_pos (by trivial)]
        | vcons h t =>
          have hw2 : wfV h = true ∧ wfM .seq t = true := by
            unfold wfM at hw
            rw [Bool.and_eq_true] at hw
            exact hw
          have hcl2 : cleanV h = true ∧ cleanV t = true := by
            unfold cleanV at hcl
            rw [Bool.and_eq_true] at hcl
            exact hcl
          obtain ⟨ch, csh, hh, htokh⟩ := pyRepr_head h hw2.1
          have hchclose : ¬ ch = close := by
            rcases hclose with hc | hc <;> subst hc
            · exact (tok_facts ch htokh).2.1
            · exact (tok_facts ch htokh).2.2.1
          by_cases ht : t = Value.vnil
          · subst ht
            rw [show pyRepr (Value.vcons h Value.vnil) = pyRepr h from rfl]
            have h1 : (pyRepr h ++ close :: rest).dropWhile isPyWs =
                ch :: (csh ++ close :: rest) := by
              rw [hh, List.cons_append]
              exact dropWhile_head_not_ws _ _ (tok_facts ch htokh).1
            simp only [parseF, h1]
            rw [if_neg hchclose]
            have hone := (ih m (by omega)).1 h (close :: rest) hw2.1 hcl2.1 (by
              rw [needF_vcons, needF_vnil] at hn
              have := Nat.le_max_left (needF h) 1
              omega)
            rw [show ch :: (csh ++ close :: rest) = pyRepr h ++ close :: rest from by
              rw [hh]; simp]
            simp only [hone]
            simp only [dropWhile_head_not_ws close rest hcw]
            rw [if_pos (by trivial)]
          · rw [pyRepr_vcons h t ht]
            obtain ⟨et, ert, hte, htokt⟩ := spine_head t hw2.2 ht
            have hetclose : ¬ et = close := by
              rcases hclose with hc | hc <;> subst hc
              · exact (tok_facts et htokt).2.1
              · exact (tok_facts et htokt).2.2.1
            have h1 : ((pyRepr h ++ [commaC, spC] ++ pyRepr t) ++ close :: rest).dropWhile
                isPyWs = ch :: (csh ++ commaC :: spC :: (pyRepr t ++ close :: rest)) := by
              rw [show (pyRepr h ++ [commaC, spC] ++ pyRepr t) ++ close :: rest =
                pyRepr h ++ commaC :: spC :: (pyRepr t ++ close :: rest) from by simp]
              rw [hh, List.cons_append]
              exact dropWhile_head_not_ws _ _ (tok_facts ch htokh).1
            simp only [parseF, h1]
            rw [if_neg hchclose]
            have hone := (ih m (by omega)).1 h
              (commaC :: spC :: (pyRepr t ++ close :: rest)) hw2.1 hcl2.1 (by
                rw [needF_vcons] at hn
                have := Nat.le_max_left (needF h) (needF t)
                omega)
            rw [show ch :: (csh ++ commaC :: spC :: (pyRepr t ++ close :: rest)) =
              pyRepr h ++ commaC :: spC :: (pyRepr t ++ close :: rest) from by rw [hh]; simp]
            simp only [hone]
            simp only [dropWhile_head_not_ws commaC (spC :: (pyRepr t ++ close :: rest))
              (by decide)]
            rw [if_neg (by rcases hclose with hc | hc <;> subst hc <;> decide :
              ¬ commaC = close)]
            rw [if_pos (by trivial)]
            rw [show (spC :: (pyRepr t ++ close :: rest)).dropWhile isPyWs =
              (pyRepr t ++ close :: rest).dropWhile isPyWs from
                List.dropWhile_cons_of_pos (by decide)]
            have h2 : (pyRepr t ++ close :: rest).dropWhile isPyWs =
                et :: (ert ++ close :: rest) := by
              rw [hte, List.cons_append]
              exact dropWhile_head_not_ws _ _ (tok_facts et htokt).1
            simp only [h2]
            rw [if_neg hetclose]
            have hseq := (ih m (by omega)).2.1 close t rest hclose hw2.2 hcl2.2 (by
              rw [needF_vcons] at hn
              have := Nat.le_max_right (needF h) (needF t)
              omega)
            rw [show et :: (ert ++ close :: rest) = pyRepr t ++ close :: rest from by
              rw [hte]; simp]
            simp only [hseq]
        | str s => simp [wfM] at hw
        | kv k w => simp [wfM] at hw
        | tup i => simp [wfM] at hw
        | lst i => simp [wfM] at hw
        | dict i => simp [wfM] at hw
      · intro sp rest hw hcl hn
        cases sp with
        | vnil =>
          rw [show pyRepr Value.vnil ++ rbC :: rest = rbC :: rest from by rw [pyRepr]; rfl]
          simp only [parseF, dropWhile_head_not_ws rbC rest (by decide)]
          rw [if_pos (by trivial)]
        | vcons hd t =>
          cases hd with
          | kv k w =>
            have hw2 : wfV w = true ∧ wfM .kvs t = true := by
              unfold wfM at hw
              rw [Bool.and_eq_true] at hw
              exact hw
            have hcl2 : (k.all cleanCharB = true ∧ cleanV w = true) ∧ cleanV t = true := by
              unfold cleanV at hcl
              rw [Bool.and_eq_true] at hcl
              refine ⟨?_, hcl.2⟩
              have := hcl.1
              unfold cleanV at this
              rw [Bool.and_eq_true] at this
              exact this
            have hfw : 1 + needF w ≤ m := by
              rw [needF_vcons, needF_kv] at hn
              have := Nat.le_max_left (1 + needF w) (needF t)
              omega
            have hft : needF t ≤ m := by
              rw [needF_vcons, needF_kv] at hn
              have := Nat.le_max_right (1 + needF w) (needF t)
              omega
            have hkvrepr : pyRepr (Value.kv k w) =
                reprStr k ++ [colonC, spC] ++ pyRepr w := rfl
            have hkey := (ih m (by omega)).1 (Value.str k) (by exact []) rfl hcl2.1.1 (by
              rw [needF_str]; omega)
            by_cases ht : t = Value.vnil
            · subst ht
              rw [show pyRepr (Value.vcons (Value.kv k w) Value.vnil) =
                pyRepr (Value.kv k w) from rfl, hkvrepr]
              have h1 : ((reprStr k ++ [colonC, spC] ++ pyRepr w) ++ rbC :: rest).dropWhile
                  isPyWs = sqC :: (k ++ sqC :: (colonC :: spC :: (pyRepr w ++ rbC :: rest))) := by
                rw [reprStr_clean k hcl2.1.1]
                rw [show ((sqC :: k ++ [sqC]) ++ [colonC, spC] ++ pyRepr w) ++ rbC :: rest =
                  sqC :: (k ++ sqC :: (colonC :: spC :: (pyRepr w ++ rbC :: rest))) from by simp]
                exact dropWhile_head_not_ws _ _ (by decide)
              simp only [parseF, h1]
              rw [if_neg (by decide : ¬ sqC = rbC)]
              have hkey2 := (ih m (by omega)).1 (Value.str k)
                (colonC :: spC :: (pyRepr w ++ rbC :: rest)) rfl hcl2.1.1 (by
                  rw [needF_str]; omega)
              rw [show sqC :: (k ++ sqC :: (colonC :: spC :: (pyRepr w ++ rbC :: rest))) =
                pyRepr (Value.str k) ++ colonC :: spC :: (pyRepr w ++ rbC :: rest) from by
                  rw [pyRepr, reprStr_clean k hcl2.1.1]; simp]
              simp only [hkey2]
              simp only [dropWhile_head_not_ws colonC (spC :: (pyRepr w ++ rbC :: rest))
                (by decide)]
              rw [if_pos (by trivial)]
              rw [show parseF m PMode.one (spC :: (pyRepr w ++ rbC :: rest)) =
                parseF m PMode.one (pyRepr w ++ rbC :: rest) from ?hws1]
              case hws1 =>
                cases m with
                | zero => rfl
                | succ m3 => simp only [parseF, List.dropWhile_cons]; rw [if_pos (by decide)]
              have hval := (ih m (by omega)).1 w (rbC :: rest) hw2.1 hcl2.1.2 (by omega)
              simp only [hval]
              simp only [dropWhile_head_not_ws rbC rest (by decide)]
              rw [if_pos (by trivial)]
            · rw [pyRepr_vcons _ t ht, hkvrepr]
              obtain ⟨ft, frt, htf, htokf⟩ := kvs_head t hw2.2 ht
              have h1 : (((reprStr k ++ [colonC, spC] ++ pyRepr w) ++ [commaC, spC] ++
                  pyRepr t) ++ rbC :: rest).dropWhile isPyWs =
                  sqC :: (k ++ sqC :: (colonC :: spC :: (pyRepr w ++ commaC :: spC ::
                    (pyRepr t ++ rbC :: rest)))) := by
                rw [reprStr_clean k hcl2.1.1]
                rw [show (((sqC :: k ++ [sqC]) ++ [colonC, spC] ++ pyRepr w) ++ [commaC, spC] ++
                  pyRepr t) ++ rbC :: rest =
                  sqC :: (k ++ sqC :: (colonC :: spC :: (pyRepr w ++ commaC :: spC ::
                    (pyRepr t ++ rbC :: rest)))) from by simp]
                exact dropWhile_head_not_ws _ _ (by decide)
              simp only [parseF, h1]
              rw [if_neg (by decide : ¬ sqC = rbC)]
              have hkey2 := (ih m (by omega)).1 (Value.str k)
                (colonC :: spC :: (pyRepr w ++ commaC :: spC :: (pyRepr t ++ rbC :: rest)))
                rfl hcl2.1.1 (by rw [needF_str]; omega)
              rw [show sqC :: (k ++ sqC :: (colonC :: spC :: (pyRepr w ++ commaC :: spC ::
                (pyRepr t ++ rbC :: rest)))) =
                pyRepr (Value.str k) ++ colonC :: spC :: (pyRepr w ++ commaC :: spC ::
                  (pyRepr t ++ rbC :: rest)) from by
                  rw [pyRepr, reprStr_clean k hcl2.1.1]; simp]
              simp only [hkey2]
              simp only [dropWhile_head_not_ws colonC (spC :: (pyRepr w ++ commaC :: spC ::
                (pyRepr t ++ rbC :: rest))) (by decide)]
              rw [if_pos (by trivial)]
              rw [show parseF m PMode.one (spC :: (pyRepr w ++ commaC :: spC ::
                (pyRepr t ++ rbC :: rest))) =
                parseF m PMode.one (pyRepr w ++ commaC :: spC :: (pyRepr t ++ rbC :: rest))
                from ?hws2]
              case hws2 =>
                cases m with
                | zero => rfl
                | succ m3 => simp only [parseF, List.dropWhile_cons]; rw [if_pos (by decide)]
              have hval := (ih m (by omega)).1 w
                (commaC :: spC :: (pyRepr t ++ rbC :: rest)) hw2.1 hcl2.1.2 (by omega)
              simp only [hval]
              simp only [dropWhile_head_not_ws commaC (spC :: (pyRepr t ++ rbC :: rest))
                (by decide)]
              rw [if_neg (by decide : ¬ commaC = rbC)]
              rw [if_pos (by trivial)]
              rw [show (spC :: (pyRepr t ++ rbC :: rest)).dropWhile isPyWs =
                (pyRepr t ++ rbC :: rest).dropWhile isPyWs from
                  List.dropWhile_cons_of_pos (by decide)]
              have h2 : (pyRepr t ++ rbC :: rest).dropWhile isPyWs =
                  ft :: (frt ++ rbC :: rest) := by
                rw [htf, List.cons_append]
                exact dropWhile_head_not_ws _ _ (by
                  rcases htokf with hc | hc <;> subst hc <;> decide)
              simp only [h2]
              rw [if_neg (by rcases htokf with hc | hc <;> subst hc <;> decide : ¬ ft = rbC)]
              have hkvs := (ih m (by omega)).2.2 t rest hw2.2 hcl2.2 (by omega)
              rw [show ft :: (frt ++ rbC :: rest) = pyRepr t ++ rbC :: rest from by
                rw [htf]; simp]
              simp only [hkvs]
          | str s => simp [wfM] at hw
          | vnil => simp [wfM] at hw
          | vcons a b => simp [wfM] at hw
          | tup i => simp [wfM] at hw
          | lst i => simp [wfM] at hw
          | dict i => simp [wfM] at hw
        | str s => simp [wfM] at hw
        | kv k w => simp [wfM] at hw
        | tup i => simp [wfM] at hw
        | lst i => simp [wfM] at hw
        | dict i => simp [wfM] at hw

/-- `literal_eval` is a left inverse of `repr` on well-formed clean values. -/
theorem literalEval_pyRepr (v : Value) (hw : wfV v = true) (hc : cleanV v = true) :
    literalEval (pyRepr v) = .ok v := by
  have hinv := (parse_repr_inv (2 * (pyRepr v).length + 2)).1 v [] hw hc
    (by have := (needF_bound v).1 hw; omega)
  rw [List.append_nil] at hinv
  unfold literalEval
  simp only [hinv]
  rfl

theorem charSetEq_refl (a : Chars) : charSetEq a a = true := by
  unfold charSetEq
  rw [Bool.and_eq_true]
  constructor <;> (rw [List.all_eq_true]; intro c hc; simp [hc])

theorem eltEq_refl (e : Elt) : eltEq e e = true := by
  unfold eltEq
  simp [charSetEq_refl]

theorem bar_not_mem_clean (s : Chars) (h : s.all cleanCharB = true) : ¬ barC ∈ s := by
  intro hm
  exact (cleanCharB_spec _ (List.all_eq_true.mp h _ hm)).2.2.2.2.2.2.2.2 rfl

theorem validateElt_not_str (e : Elt) (hv : validateElt e = true) (s : Chars) :
    ¬ e.result = Value.str s := by
  intro h
  unfold validateElt at hv
  simp only [h] at hv
  exact Bool.noConfusion hv

theorem pyStr_nonstr (r : Value) (h : ∀ s, ¬ r = Value.str s) : pyStr r = pyRepr r := by
  cases r
  case str s => exact absurd rfl (h s)
  all_goals rfl

/-- `_get_split_update` undoes `_get_joined_update` on validated, clean
elements. -/
theorem splitUpdate_joined (e : Elt) (hv : validateElt e = true) (hc : cleanElt e = true) :
    splitUpdate (joined e) = .ok e := by
  have hop : e.op.all cleanCharB = true ∧ e.key.all cleanCharB = true ∧
      wfV e.result = true ∧ cleanV e.result = true := by
    unfold cleanElt at hc
    rw [Bool.and_eq_true, Bool.and_eq_true, Bool.and_eq_true] at hc
    tauto
  have hps : pyStr e.result = pyRepr e.result :=
    pyStr_nonstr _ (validateElt_not_str e hv)
  have hsplit : splitOnChar barC (joined e) = [e.op, e.key, pyRepr e.result] := by
    unfold joined
    rw [hps]
    rw [show e.op ++ [barC] ++ e.key ++ [barC] ++ pyRepr e.result =
      e.op ++ barC :: (e.key ++ barC :: pyRepr e.result) from by simp]
    rw [splitOnChar_append, splitOnChar_append]
    rw [splitOnChar_no_sep _ _ (bar_not_mem_clean _ hop.1),
        splitOnChar_no_sep _ _ (bar_not_mem_clean _ hop.2.1),
        splitOnChar_no_sep _ _ (not_mem_pyRepr _ hop.2.2.2 barC (by decide) (by decide))]
    rfl
  unfold splitUpdate
  simp only [hsplit, literalEval_pyRepr _ hop.2.2.1 hop.2.2.2]

theorem eltCompare_cancel (p : Chars) (v : Value) :
    eltCompare ⟨addS, p, v⟩ ⟨removeS, p, v⟩ = .ok (some false, ⟨addS, p, v⟩) := by
  simp [eltCompare, charSetEq_refl, show strLower addS = addS from by decide,
    show strLower removeS = removeS from by decide,
    show ¬ addS = removeS from by decide, show ¬ addS = changeS from by decide,
    show ¬ removeS = changeS from by decide]

/-- C2 (amended): with clean path and payload characters, the opposite
operations cancel. -/
theorem c2_cancellation_amended (p : Chars) (v : Value)
    (hval : validateElt ⟨addS, p, v⟩ = true) (hk : p.all cleanCharB = true)
    (hw : wfV v = true) (hc : cleanV v = true) :
    diffCompare [⟨addS, p, v⟩] [⟨removeS, p, v⟩] = .ok [] := by
  have hval2 : procValidate [(⟨addS, p, v⟩ : Elt)] = .ok [⟨addS, p, v⟩] :=
    procValidate_all_valid _ (by intro e he; simp at he; subst he; exact hval)
  have hinner : innerScan ⟨addS, p, v⟩ [⟨removeS, p, v⟩] [] [] =
      .ok (⟨addS, p, v⟩, [joined ⟨removeS, p, v⟩], [joined ⟨addS, p, v⟩]) := by
    unfold innerScan
    simp only [eltCompare_cancel p v]
    unfold innerScan
    simp [setInsert]
  have houter : outerScan [⟨addS, p, v⟩] [⟨removeS, p, v⟩] [] [] =
      .ok ([⟨addS, p, v⟩], [joined ⟨removeS, p, v⟩], [joined ⟨addS, p, v⟩]) := by
    unfold outerScan
    simp only [hinner]
    rfl
  have hclean : cleanElt ⟨addS, p, v⟩ = true := by
    unfold cleanElt
    simp [hk, hw, hc]
    decide
  have hsj : splitUpdate (joined ⟨addS, p, v⟩) = .ok ⟨addS, p, v⟩ :=
    splitUpdate_joined _ hval hclean
  unfold diffCompare
  simp only [hval2, houter, bind, Except.bind]
  simp only [List.foldl, List.foldlM, hsj, bind, Except.bind, pure, Except.pure]
  rw [if_pos (by simp : joined (⟨removeS, p, v⟩ : Elt) ∈ [joined ⟨removeS, p, v⟩])]
  simp [pyListRemove, eltEq_refl, pure, Except.pure]

/-- C3 (amended): with clean path characters and clean well-formed
values, merging `[Change(p, a, b)]` with `[Change(p, b, a)]` yields the
empty set. -/
theorem c3_full_revert_amended (p : Chars) (a b : Value)
    (hk : p.all cleanCharB = true)
    (hwa : wfV a = true) (hca : cleanV a = true)
    (hwb : wfV b = true) (hcb : cleanV b = true) :
    diffCompare [⟨changeS, p, .tup (VL [a, b])⟩] [⟨changeS, p, .tup (VL [b, a])⟩] = .ok [] := by
  have hval : validateElt ⟨changeS, p, .tup (VL [a, b])⟩ = true := rfl
  have hcmp : eltCompare ⟨changeS, p, .tup (VL [a, b])⟩ ⟨changeS, p, .tup (VL [b, a])⟩ =
      .ok (some false, ⟨changeS, p, .tup (VL [a, b])⟩) := by
    rw [eltCompare_change_change p b a a b, if_pos rfl]
  have hval2 : procValidate [(⟨changeS, p, .tup (VL [a, b])⟩ : Elt)] =
      .ok [⟨changeS, p, .tup (VL [a, b])⟩] :=
    procValidate_all_valid _ (by intro e he; simp at he; subst he; exact hval)
  have hinner : innerScan ⟨changeS, p, .tup (VL [a, b])⟩
      [⟨changeS, p, .tup (VL [b, a])⟩] [] [] =
      .ok (⟨changeS, p, .tup (VL [a, b])⟩, [joined ⟨changeS, p, .tup (VL [b, a])⟩],
        [joined ⟨changeS, p, .tup (VL [a, b])⟩]) := by
    unfold innerScan
    simp only [hcmp]
    unfold innerScan
    simp [setInsert]
  have houter : outerScan [⟨changeS, p, .tup (VL [a, b])⟩]
      [⟨changeS, p, .tup (VL [b, a])⟩] [] [] =
      .ok ([⟨changeS, p, .tup (VL [a, b])⟩], [joined ⟨changeS, p, .tup (VL [b, a])⟩],
        [joined ⟨changeS, p, .tup (VL [a, b])⟩]) := by
    unfold outerScan
    simp only [hinner]
    rfl
  have hclean : cleanElt ⟨changeS, p, .tup (VL [a, b])⟩ = true := by
    unfold wfV at hwa hwb
    unfold cleanElt wfV
    simp [wfM, cleanV, VL, hk, hwa, hwb, hca, hcb,
      show changeS.all cleanCharB = true from by decide]
  have hsj : splitUpdate (joined ⟨changeS, p, .tup (VL [a, b])⟩) =
      .ok ⟨changeS, p, .tup (VL [a, b])⟩ :=
    splitUpdate_joined _ hval hclean
  unfold diffCompare
  simp only [hval2, houter, bind, Except.bind]
  simp only [List.foldl, List.foldlM, hsj, bind, Except.bind, pure, Except.pure]
  rw [if_pos (by simp : joined (⟨changeS, p, .tup (VL [b, a])⟩ : Elt) ∈
    [joined ⟨changeS, p, .tup (VL [b, a])⟩])]
  simp [pyListRemove, eltEq_refl, pure, Except.pure]

theorem c2_witness :
    validateElt ⟨addS, "p".data, .lst (VL [.str "x".data])⟩ = true ∧
      diffCompare [⟨addS, "p".data, .lst (VL [.str "x".data])⟩]
        [⟨removeS, "p".data, .lst (VL [.str "x".data])⟩] = .ok [] :=
  ⟨by decide, c2_cancellation_amended "p".data (.lst (VL [.str "x".data]))
    (by decide) (by decide) (by decide) (by decide)⟩

theorem c3_witness :
    "p".data.all cleanCharB = true ∧
      diffCompare [⟨changeS, "p".data, .tup (VL [.str "x".data, .str "y".data])⟩]
        [⟨changeS, "p".data, .tup (VL [.str "y".data, .str "x".data])⟩] = .ok [] :=
  ⟨by decide, c3_full_revert_amended "p".data (.str "x".data) (.str "y".data)
    (by decide) (by decide) (by decide) (by decide) (by decide)⟩

theorem exceptBind_ok {α β : Type} (a : α) (f : α → Except Unit β) :
    (Except.ok a >>= f : Except Unit β) = f a := rfl

theorem outerScan_all_unrelated (ths oth : List Elt) (skip rem : List Chars)
    (h : ∀ e ∈ ths, ∀ o ∈ oth, o.key ≠ e.key) :
    outerScan ths oth skip rem = .ok (ths, skip, rem) := by
  induction ths generalizing skip rem with
  | nil => rfl
  | cons e es ih =>
    unfold outerScan
    simp only [innerScan_no_key e oth skip rem (h e (by simp)),
      ih skip rem (fun e2 he2 => h e2 (by simp [he2]))]

theorem foldl_setInsert_fresh (l : List Elt) (acc : List Chars)
    (hnd : (l.map joined).Nodup) (hf : ∀ o ∈ l, ¬ joined o ∈ acc) :
    l.foldl (fun acc o => setInsert acc (joined o)) acc = acc ++ l.map joined := by
  induction l generalizing acc with
  | nil => simp
  | cons o os ih =>
    simp only [List.foldl, List.map]
    rw [show setInsert acc (joined o) = acc ++ [joined o] from by
      unfold setInsert
      rw [if_neg (hf o (by simp))]]
    rw [List.map_cons, List.nodup_cons] at hnd
    rw [ih (acc ++ [joined o]) hnd.2 ?hfr]
    case hfr =>
      intro o2 ho2 hmem
      rw [List.mem_append] at hmem
      rcases hmem with hm | hm
      · exact hf o2 (by simp [ho2]) hm
      · simp at hm
        exact hnd.1 (hm ▸ List.mem_map_of_mem joined ho2)
    simp

theorem foldlM_split_append (os : List Elt) (l : List Elt)
    (h : ∀ o ∈ os, validateElt o = true ∧ cleanElt o = true) :
    (os.map joined).foldlM (fun l s => do let e ← splitUpdate s; pure (l ++ [e])) l =
      .ok (l ++ os) := by
  induction os generalizing l with
  | nil => simp; rfl
  | cons o os ih =>
    simp only [List.map, List.foldlM]
    simp only [splitUpdate_joined o (h o (by simp)).1 (h o (by simp)).2, exceptBind_ok]
    rw [show (do pure (l ++ [o]) >>= fun s =>
        (os.map joined).foldlM (fun l s => do let e ← splitUpdate s; pure (l ++ [e])) s :
        Except Unit (List Elt)) =
      (os.map joined).foldlM (fun l s => do let e ← splitUpdate s; pure (l ++ [e]))
        (l ++ [o]) from rfl]
    rw [ih (l ++ [o]) (fun o2 h2 => h o2 (by simp [h2]))]
    simp

/-- Under the disjoint-path hypotheses the model `diffCompare` coincides
with `diffCompareIter` at the insertion-order enumeration of the
carry-forward set: the insertion-ordered model is one instance of the
order-parametric one. -/
theorem diffCompare_insertion_enum (ths oth : List Elt)
    (hdisj : ∀ e ∈ ths, ∀ o ∈ oth, o.key ≠ e.key)
    (hvt : ∀ e ∈ ths, validateElt e = true)
    (hvo : ∀ o ∈ oth, validateElt o = true ∧ cleanElt o = true)
    (hnd : (oth.map joined).Nodup) :
    diffCompare ths oth = diffCompareIter ths oth (oth.map joined) := by
  have h1 : diffCompare ths oth = .ok (ths ++ oth) := by
    unfold diffCompare
    simp only [procValidate_all_valid ths hvt, exceptBind_ok]
    simp only [outerScan_all_unrelated ths oth [] [] hdisj, exceptBind_ok]
    simp only [show (fun (acc : List Chars) o => if joined o ∈ ([] : List Chars) then acc
        else setInsert acc (joined o)) = fun acc o => setInsert acc (joined o) from by
      funext acc o
      rw [if_neg (List.not_mem_nil _)]]
    rw [foldl_setInsert_fresh oth [] hnd (fun o ho => List.not_mem_nil _), List.nil_append]
    simp only [foldlM_split_append oth ths hvo, exceptBind_ok]
    rfl
  have h2 : diffCompareIter ths oth (oth.map joined) = .ok (ths ++ oth) := by
    unfold diffCompareIter
    simp only [procValidate_all_valid ths hvt, exceptBind_ok]
    simp only [outerScan_all_unrelated ths oth [] [] hdisj, exceptBind_ok]
    simp only [foldlM_split_append oth ths hvo, exceptBind_ok]
    rfl
  rw [h1, h2]

/-- C5 (amended): the merge keeps the surviving this-set elements first,
in their original order, and then appends the carried-forward other-set
elements in whatever order CPython enumerates the `to_add` set — an
arbitrary order, modelled by quantifying over every permutation `oth2`
of the other set.  For disjoint field paths, validated elements, clean
other-set elements and pairwise distinct joined forms, the merge at any
such enumeration returns exactly the this-set elements followed by the
other-set elements in that enumeration order. -/
theorem c5_ordering_amended (ths oth oth2 : List Elt) (hperm : oth2.Perm oth)
    (hdisj : ∀ e ∈ ths, ∀ o ∈ oth, o.key ≠ e.key)
    (hvt : ∀ e ∈ ths, validateElt e = true)
    (hvo : ∀ o ∈ oth, validateElt o = true ∧ cleanElt o = true)
    (_hnd : (oth.map joined).Nodup) :
    diffCompareIter ths oth (oth2.map joined) = .ok (ths ++ oth2) := by
  have hvo2 : ∀ o ∈ oth2, validateElt o = true ∧ cleanElt o = true :=
    fun o ho => hvo o (hperm.mem_iff.mp ho)
  unfold diffCompareIter
  simp only [procValidate_all_valid ths hvt, exceptBind_ok]
  simp only [outerScan_all_unrelated ths oth [] [] hdisj, exceptBind_ok]
  simp only [foldlM_split_append oth2 ths hvo2, exceptBind_ok]
  rfl

theorem c5_witness :
    ([Elt.mk removeS "x".data (.lst (VL [.str "y".data])),
        Elt.mk removeS "u".data (.lst (VL [.str "w".data]))].Perm
      [Elt.mk removeS "u".data (.lst (VL [.str "w".data])),
        Elt.mk removeS "x".data (.lst (VL [.str "y".data]))]) ∧
      diffCompareIter [Elt.mk addS "t".data (.lst (VL [.str "v".data]))]
          [Elt.mk removeS "u".data (.lst (VL [.str "w".data])),
            Elt.mk removeS "x".data (.lst (VL [.str "y".data]))]
          ([Elt.mk removeS "x".data (.lst (VL [.str "y".data])),
            Elt.mk removeS "u".data (.lst (VL [.str "w".data]))].map joined) =
        .ok ([Elt.mk addS "t".data (.lst (VL [.str "v".data]))] ++
          [Elt.mk removeS "x".data (.lst (VL [.str "y".data])),
            Elt.mk removeS "u".data (.lst (VL [.str "w".data]))]) :=
  ⟨by decide, c5_ordering_amended _ _ _ (by decide) (by decide) (by decide) (by decide)
    (by decide)⟩

theorem strip_append : ∀ (a b : Chars) (st : Bool), stripTagsAux st (a ++ b) =
    stripTagsAux st a ++ stripTagsAux (tagState st a) b := by
  intro a
  induction a with
  | nil => intro b st; cases st <;> rfl
  | cons c cs ih =>
    intro b st
    cases st with
    | false =>
      by_cases hc : c = ltC
      · simp [stripTagsAux, tagState, hc, ih]
      · simp [stripTagsAux, tagState, hc, ih]
    | true =>
      by_cases hc : c = gtC
      · simp [stripTagsAux, tagState, hc, ih]
      · simp [stripTagsAux, tagState, hc, ih]

theorem tagState_append : ∀ (a b : Chars) (st : Bool),
    tagState st (a ++ b) = tagState (tagState st a) b := by
  intro a
  induction a with
  | nil => intro b st; cases st <;> rfl
  | cons c cs ih =>
    intro b st
    cases st with
    | false => simp [tagState, ih]
    | true => simp [tagState, ih]

theorem strip_clean (s : Chars) (h : ∀ c ∈ s, ¬ c = ltC ∧ ¬ c = gtC) :
    stripTagsAux false s = s ∧ tagState false s = false := by
  induction s with
  | nil => exact ⟨rfl, rfl⟩
  | cons c cs ih =>
    have hc := h c (by simp)
    have ihr := ih (fun d hd => h d (by simp [hd]))
    constructor
    · simp [stripTagsAux, hc.1, ihr.1]
    · simp [tagState, hc.1, ihr.2]

theorem normLines_append (a b : Chars) :
    normLines (a ++ nlC :: b) = normLines a ++ normLines b := by
  unfold normLines
  rw [splitOnChar_append, List.map_append, List.filter_append]

theorem normLines_nil : normLines [] = [] := rfl

theorem normLines_no_nl (s : Chars) (h : ¬ nlC ∈ s) :
    normLines s = if stripWs s = [] then [] else [stripWs s] := by
  unfold normLines
  rw [splitOnChar_no_sep _ _ h]
  by_cases hx : stripWs s = []
  · simp [hx]
  · simp [hx]

theorem stripWs_all_ws (w : Chars) (hw : w.all isPyWs = true) : stripWs w = [] := by
  unfold stripWs
  rw [List.dropWhile_eq_nil_iff.mpr (fun a ha => List.all_eq_true.mp hw a ha)]
  rfl

theorem normLines_ws_nl (w : Chars) (hw : w.all isPyWs = true) (hnl : ¬ nlC ∈ w)
    (t : Chars) : normLines (w ++ nlC :: t) = normLines t := by
  rw [normLines_append, normLines_no_nl w hnl, if_pos (stripWs_all_ws w hw), List.nil_append]

theorem stripWs_pad_brace (pad mid : Chars) (hp : pad.all isPyWs = true) :
    stripWs (pad ++ lbC :: (mid ++ [rbC])) = lbC :: (mid ++ [rbC]) := by
  unfold stripWs
  rw [dropWhile_append_all _ _ _ hp]
  rw [dropWhile_head_not_ws _ _ (by decide)]
  rw [show (lbC :: (mid ++ [rbC])).reverse = rbC :: (mid.reverse ++ [lbC]) from by simp]
  rw [dropWhile_head_not_ws _ _ (by decide)]
  rw [show (rbC :: (mid.reverse ++ [lbC])).reverse = lbC :: (mid ++ [rbC]) from by simp]

theorem normLines_item (x : Chars) (hnl : ¬ nlC ∈ x)
    (hx : ∃ mid, x = lbC :: (mid ++ [rbC])) : normLines (pad8 ++ x) = [x] := by
  obtain ⟨mid, rfl⟩ := hx
  rw [normLines_no_nl _ (by
    intro hm
    rw [List.mem_append] at hm
    rcases hm with hm | hm
    · exact absurd hm (by decide)
    · exact hnl hm)]
  rw [stripWs_pad_brace pad8 mid (by decide)]
  rw [if_neg (by simp)]

theorem normLines_flat (xs : List Chars) (tail0 : Chars)
    (h : ∀ x ∈ xs, ¬ nlC ∈ x ∧ ∃ mid, x = lbC :: (mid ++ [rbC])) :
    normLines (xs.flatMap itemStr ++ nlC :: tail0) = xs ++ normLines tail0 := by
  induction xs with
  | nil =>
    rw [List.flatMap_nil, List.nil_append]
    rw [show nlC :: tail0 = ([] : Chars) ++ nlC :: tail0 from rfl, normLines_append,
      normLines_nil, List.nil_append]
  | cons x xs ih =>
    have hx := h x (by simp)
    rw [show (x :: xs).flatMap itemStr ++ nlC :: tail0 =
      ([] : Chars) ++ nlC :: ((pad8 ++ x) ++ nlC :: (pad4 ++ (xs.flatMap itemStr ++ nlC :: tail0)))
      from by simp [itemStr]]
    rw [normLines_append, normLines_append, normLines_nil, List.nil_append]
    rw [normLines_item x hx.1 hx.2]
    have hrest : normLines (pad4 ++ (xs.flatMap itemStr ++ nlC :: tail0)) =
        xs ++ normLines tail0 := by
      cases xs with
      | nil =>
        rw [List.flatMap_nil, List.nil_append, normLines_ws_nl pad4 (by decide) (by decide)]
        rfl
      | cons y ys =>
        rw [show (y :: ys).flatMap itemStr ++ nlC :: tail0 =
          nlC :: (((pad8 ++ y ++ nlC :: pad4) ++ ys.flatMap itemStr) ++ nlC :: tail0)
          from by simp [itemStr]]
        rw [normLines_ws_nl pad4 (by decide) (by decide)]
        have := ih (fun x2 hx2 => h x2 (by simp [hx2]))
        rw [show (y :: ys).flatMap itemStr ++ nlC :: tail0 =
          nlC :: (((pad8 ++ y ++ nlC :: pad4) ++ ys.flatMap itemStr) ++ nlC :: tail0)
          from by simp [itemStr]] at this
        rw [show nlC :: (((pad8 ++ y ++ nlC :: pad4) ++ ys.flatMap itemStr) ++ nlC :: tail0) =
          ([] : Chars) ++ nlC :: (((pad8 ++ y ++ nlC :: pad4) ++ ys.flatMap itemStr) ++
            nlC :: tail0) from rfl, normLines_append, normLines_nil, List.nil_append] at this
        exact this
    rw [hrest]
    rfl

theorem strip_flat (xs : List Chars) (h : ∀ x ∈ xs, ∀ c ∈ x, ¬ c = ltC ∧ ¬ c = gtC) :
    stripTagsAux false (xs.flatMap fun x => item1 ++ x ++ item2) = xs.flatMap itemStr ∧
    tagState false (xs.flatMap fun x => item1 ++ x ++ item2) = false := by
  induction xs with
  | nil => exact ⟨rfl, rfl⟩
  | cons x xs ih =>
    have hx := strip_clean x (h x (by simp))
    have ihr := ih (fun y hy => h y (by simp [hy]))
    have h2 : tagState false (item1 ++ x ++ item2) = false := by
      rw [show item1 ++ x ++ item2 = item1 ++ (x ++ item2) from by simp,
        tagState_append, tagState_append]
      rw [show tagState false item1 = false from by decide, hx.2,
        show tagState false item2 = false from by decide]
    have h1 : stripTagsAux false (item1 ++ x ++ item2) = itemStr x := by
      rw [show item1 ++ x ++ item2 = item1 ++ (x ++ item2) from by simp,
        strip_append, strip_append]
      rw [show tagState false item1 = false from by decide, hx.1, hx.2,
        show stripTagsAux false item1 = nlC :: pad8 from by decide,
        show stripTagsAux false item2 = nlC :: pad4 from by decide]
      simp [itemStr]
    constructor
    · rw [show (x :: xs).flatMap (fun x => item1 ++ x ++ item2) =
        (item1 ++ x ++ item2) ++ xs.flatMap (fun x => item1 ++ x ++ item2) from by simp]
      rw [strip_append, h1, h2, ihr.1]
      simp
    · rw [show (x :: xs).flatMap (fun x => item1 ++ x ++ item2) =
        (item1 ++ x ++ item2) ++ xs.flatMap (fun x => item1 ++ x ++ item2) from by simp]
      rw [tagState_append, h2, ihr.2]

theorem strip_section (msg : Chars) (xs : List Chars)
    (hm : ∀ c ∈ msg, ¬ c = ltC ∧ ¬ c = gtC)
    (h : ∀ x ∈ xs, ∀ c ∈ x, ¬ c = ltC ∧ ¬ c = gtC) :
    stripTagsAux false (renderSection msg xs) = secStr msg xs ∧
    tagState false (renderSection msg xs) = false := by
  by_cases hxs : xs = []
  · rw [show renderSection msg xs = [] from by rw [renderSection, if_pos hxs],
      show secStr msg xs = [] from by rw [secStr, if_pos hxs]]
    exact ⟨rfl, rfl⟩
  · have hmsg := strip_clean msg hm
    have hfl := strip_flat xs h
    rw [show renderSection msg xs = sec1 ++ (msg ++ (sec2 ++
        ((xs.flatMap fun x => item1 ++ x ++ item2) ++ sec3))) from by
      rw [renderSection, if_neg hxs]; simp,
      show secStr msg xs = (nlC :: pad4) ++ (msg ++ (((nlC :: pad4) ++ (nlC :: pad4)) ++
        (xs.flatMap itemStr ++ ((nlC :: pad4) ++ (nlC :: pad4))))) from by
      rw [secStr, if_neg hxs]; simp]
    constructor
    · rw [strip_append, strip_append, strip_append, strip_append]
      rw [show tagState false sec1 = false from by decide, hmsg.1, hmsg.2,
        show tagState false sec2 = false from by decide, hfl.1, hfl.2,
        show stripTagsAux false sec1 = nlC :: pad4 from by decide,
        show stripTagsAux false sec2 = (nlC :: pad4) ++ (nlC :: pad4) from by decide,
        show stripTagsAux false sec3 = (nlC :: pad4) ++ (nlC :: pad4) from by decide]
    · rw [tagState_append, tagState_append, tagState_append, tagState_append]
      rw [show tagState false sec1 = false from by decide, hmsg.2,
        show tagState false sec2 = false from by decide, hfl.2,
        show tagState false sec3 = false from by decide]

theorem normLines_pad_flat (xs : List Chars) (hne : ¬ xs = []) (t0 : Chars) :
    normLines (pad4 ++ (xs.flatMap itemStr ++ nlC :: t0)) =
      normLines (xs.flatMap itemStr ++ nlC :: t0) := by
  cases xs with
  | nil => exact absurd rfl hne
  | cons y ys =>
    rw [show (y :: ys).flatMap itemStr ++ nlC :: t0 =
      nlC :: ((pad8 ++ y ++ nlC :: pad4) ++ (ys.flatMap itemStr ++ nlC :: t0)) from by
        simp [itemStr]]
    rw [normLines_ws_nl pad4 (by decide) (by decide)]
    rw [show nlC :: ((pad8 ++ y ++ nlC :: pad4) ++ (ys.flatMap itemStr ++ nlC :: t0)) =
      ([] : Chars) ++ nlC :: ((pad8 ++ y ++ nlC :: pad4) ++ (ys.flatMap itemStr ++ nlC :: t0))
      from rfl, normLines_append, normLines_nil, List.nil_append]

theorem normLines_psec (msg : Chars) (xs : List Chars) (t : Chars)
    (hm1 : normLines (pad4 ++ msg) = [msg])
    (hx : ∀ x ∈ xs, ¬ nlC ∈ x ∧ ∃ mid, x = lbC :: (mid ++ [rbC])) :
    normLines (pad4 ++ (secStr msg xs ++ nlC :: t)) = secL msg xs ++ normLines t := by
  by_cases hxs : xs = []
  · rw [show secStr msg xs = [] from by rw [secStr, if_pos hxs],
      show secL msg xs = [] from by rw [secL, if_pos hxs], List.nil_append]
    exact normLines_ws_nl pad4 (by decide) (by decide) t
  · rw [show secL msg xs = msg :: xs from by rw [secL, if_neg hxs]]
    rw [show pad4 ++ (secStr msg xs ++ nlC :: t) =
      pad4 ++ nlC :: ((pad4 ++ msg) ++ nlC :: (pad4 ++ nlC :: (pad4 ++
        (xs.flatMap itemStr ++ nlC :: (pad4 ++ nlC :: (pad4 ++ nlC :: t)))))) from by
      rw [secStr, if_neg hxs]; simp]
    rw [normLines_ws_nl pad4 (by decide) (by decide)]
    rw [normLines_append, hm1]
    rw [normLines_ws_nl pad4 (by decide) (by decide)]
    rw [normLines_pad_flat xs hxs, normLines_flat xs _ hx]
    rw [normLines_ws_nl pad4 (by decide) (by decide)]
    rw [normLines_ws_nl pad4 (by decide) (by decide)]
    rfl

theorem normLines_nl (z : Chars) : normLines (nlC :: z) = normLines z :=
  normLines_ws_nl [] (by decide) (by decide) z

theorem strip_template (H : Chars) (A C R : List Chars)
    (hH : ∀ c ∈ H, ¬ c = ltC ∧ ¬ c = gtC)
    (hA : ∀ x ∈ A, ∀ c ∈ x, ¬ c = ltC ∧ ¬ c = gtC)
    (hC : ∀ x ∈ C, ∀ c ∈ x, ¬ c = ltC ∧ ¬ c = gtC)
    (hR : ∀ x ∈ R, ∀ c ∈ x, ¬ c = ltC ∧ ¬ c = gtC) :
    stripTagsAux false (renderTemplate H A C R) =
      "\n\n     ".data ++ H ++ " \n\n    ".data ++ secStr addedMsg A ++
        "\n\n    ".data ++ secStr changedMsg C ++ "\n\n    ".data ++
        secStr removedMsg R ++ "\n\n        ".data := by
  have hh := strip_clean H hH
  have h1 := strip_section addedMsg A (by decide) hA
  have h2 := strip_section changedMsg C (by decide) hC
  have h3 := strip_section removedMsg R (by decide) hR
  rw [show renderTemplate H A C R = tPre ++ (H ++ (tPost ++ (renderSection addedMsg A ++
      (tSep ++ (renderSection changedMsg C ++ (tSep ++ (renderSection removedMsg R ++
        tEnd))))))) from by rw [renderTemplate]; simp]
  rw [strip_append, strip_append, strip_append, strip_append, strip_append, strip_append,
    strip_append, strip_append]
  simp only [show tagState false tPre = false from by decide, hh.1, hh.2,
    show tagState false tPost = false from by decide, h1.1, h1.2,
    show tagState false tSep = false from by decide, h2.1, h2.2, h3.1, h3.2,
    show stripTagsAux false tPre = "\n\n     ".data from by decide,
    show stripTagsAux false tPost = " \n\n    ".data from by decide,
    show stripTagsAux false tSep = "\n\n    ".data from by decide,
    show stripTagsAux false tEnd = "\n\n        ".data from by decide]
  simp

theorem normLines_template (H : Chars) (A C R : List Chars)
    (hH : normLines ("     ".data ++ H ++ [spC]) = [H])
    (hA : ∀ x ∈ A, ¬ nlC ∈ x ∧ ∃ mid, x = lbC :: (mid ++ [rbC]))
    (hC : ∀ x ∈ C, ¬ nlC ∈ x ∧ ∃ mid, x = lbC :: (mid ++ [rbC]))
    (hR : ∀ x ∈ R, ¬ nlC ∈ x ∧ ∃ mid, x = lbC :: (mid ++ [rbC])) :
    normLines ("\n\n     ".data ++ H ++ " \n\n    ".data ++ secStr addedMsg A ++
        "\n\n    ".data ++ secStr changedMsg C ++ "\n\n    ".data ++
        secStr removedMsg R ++ "\n\n        ".data) =
      H :: (secL addedMsg A ++ secL changedMsg C ++ secL removedMsg R) := by
  rw [show "\n\n     ".data ++ H ++ " \n\n    ".data ++ secStr addedMsg A ++
      "\n\n    ".data ++ secStr changedMsg C ++ "\n\n    ".data ++
      secStr removedMsg R ++ "\n\n        ".data =
    nlC :: (nlC :: (("     ".data ++ H ++ [spC]) ++ nlC :: (nlC :: (pad4 ++
      (secStr addedMsg A ++ nlC :: (nlC :: (pad4 ++ (secStr changedMsg C ++ nlC ::
        (nlC :: (pad4 ++ (secStr removedMsg R ++ nlC :: (nlC :: pad8)))))))))))) from by
    simp [show nlC = Char.ofNat 10 from rfl, show spC = Char.ofNat 32 from rfl,
      show pad4 = "    ".data from by decide, show pad8 = "        ".data from by decide]]
  rw [normLines_nl, normLines_nl, normLines_append, hH, normLines_nl]
  rw [normLines_psec addedMsg A _ (by decide) hA, normLines_nl]
  rw [normLines_psec changedMsg C _ (by decide) hC, normLines_nl]
  rw [normLines_psec removedMsg R _ (by decide) hR, normLines_nl]
  rw [show normLines pad8 = [] from by decide]
  simp

theorem headerFor_facts (act : Chars) :
    (∀ c ∈ headerFor act, ¬ c = ltC ∧ ¬ c = gtC) ∧
    normLines ("     ".data ++ headerFor act ++ [spC]) = [headerFor act] := by
  unfold headerFor
  repeat' split
  all_goals exact ⟨by decide, by decide⟩

theorem spacedKey_clean (k : Chars) (h : cleanKeyB k = true) :
    (spacedKey k).all cleanCharB = true := by
  unfold spacedKey
  rw [joinWith_split_replace]
  rw [List.all_eq_true]
  intro c hc
  rw [List.mem_map] at hc
  obtain ⟨d, hd, rfl⟩ := hc
  have hkd := List.all_eq_true.mp h d hd
  rw [Bool.and_eq_true] at hkd
  by_cases hdd : d = dotC
  · rw [if_pos hdd]
    decide
  · rw [if_neg hdd]
    exact hkd.1

theorem goodElt_parts (e : Elt) (hg : goodElt e = true) :
    cleanKeyB e.key = true ∧
    ((e.op = changeS ∧ ∃ o n, e.result = .tup (.vcons o (.vcons n .vnil)) ∧
        wfV o = true ∧ cleanV o = true ∧ wfV n = true ∧ cleanV n = true) ∨
     ((e.op = addS ∨ e.op = removeS) ∧ validateElt e = true ∧ wfV e.result = true ∧
        cleanV e.result = true)) := by
  unfold goodElt at hg
  rw [Bool.and_eq_true] at hg
  refine ⟨hg.1, ?_⟩
  have h2 := hg.2
  by_cases hop : e.op = changeS
  · rw [if_pos hop] at h2
    left
    refine ⟨hop, ?_⟩
    split at h2
    · rename_i o n heq
      rw [Bool.and_eq_true, Bool.and_eq_true, Bool.and_eq_true] at h2
      exact ⟨o, n, heq, h2.1.1.1, h2.1.1.2, h2.1.2, h2.2⟩
    · exact absurd h2 (by simp)
  · rw [if_neg hop] at h2
    right
    by_cases hop2 : e.op = addS ∨ e.op = removeS
    · rw [if_pos hop2] at h2
      rw [Bool.and_eq_true, Bool.and_eq_true] at h2
      exact ⟨hop2, h2.1.1, h2.1.2, h2.2⟩
    · rw [if_neg hop2] at h2
      exact absurd h2 (by simp)

theorem goodElt_validate (e : Elt) (hg : goodElt e = true) : validateElt e = true := by
  rcases (goodElt_parts e hg).2 with ⟨_, o, n, hr, _⟩ | ⟨_, hv, _⟩
  · simp [validateElt, hr]
  · exact hv

theorem eltToHtml_good (e : Elt) (hg : goodElt e = true) :
    eltToHtml e = .ok (lineOf e) := by
  rcases (goodElt_parts e hg).2 with ⟨hop, o, n, hr, _⟩ | ⟨hop2, _⟩
  · unfold eltToHtml lineOf
    rw [if_neg (by simp [hop] : ¬ e.op ≠ changeS), if_pos hop, hr]
    rfl
  · have hopne : ¬ e.op = changeS := by
      rcases hop2 with h | h <;> rw [h] <;> decide
    unfold eltToHtml lineOf
    rw [if_pos hopne, if_neg hopne]

theorem collectGroups_spec (D : List Elt) (hg : ∀ e ∈ D, goodElt e = true) :
    collectGroups D = .ok ((D.filter fun e => e.op = addS).map lineOf,
      (D.filter fun e => e.op = changeS).map lineOf,
      (D.filter fun e => e.op = removeS).map lineOf) := by
  induction D with
  | nil => rfl
  | cons e es ih =>
    have hge := hg e (by simp)
    have ihr := ih (fun x hx => hg x (by simp [hx]))
    have hops : e.op = addS ∨ e.op = changeS ∨ e.op = removeS := by
      rcases (goodElt_parts e hge).2 with ⟨hop, _⟩ | ⟨hop2, _⟩
      · right
        left
        exact hop
      · rcases hop2 with h | h
        · left
          exact h
        · right
          right
          exact h
    unfold collectGroups
    rcases hops with hop | hop | hop
    · rw [if_pos hop]
      simp only [eltToHtml_good e hge, ihr]
      simp [List.filter_cons, hop, show ¬ addS = changeS from by decide,
        show ¬ addS = removeS from by decide]
    · rw [if_neg (by rw [hop]; decide), if_pos hop]
      simp only [eltToHtml_good e hge, ihr]
      simp [List.filter_cons, hop, show ¬ changeS = addS from by decide,
        show ¬ changeS = removeS from by decide]
    · rw [if_neg (by rw [hop]; decide), if_neg (by rw [hop]; decide), if_pos hop]
      simp only [eltToHtml_good e hge, ihr]
      simp [List.filter_cons, hop, show ¬ removeS = addS from by decide,
        show ¬ removeS = changeS from by decide]

theorem lineOf_props (e : Elt) (hg : goodElt e = true) :
    ∃ P, lineOf e = pyRepr (.dict (KVL [(spacedKey e.key, P)])) ∧
      wfV (.dict (KVL [(spacedKey e.key, P)])) = true ∧
      cleanV (.dict (KVL [(spacedKey e.key, P)])) = true ∧
      ((e.op = changeS ∧ ∃ o n, e.result = .tup (.vcons o (.vcons n .vnil)) ∧
          P = .dict (KVL [("old".data, o), ("new".data, n)])) ∨
       (¬ e.op = changeS ∧ P = e.result)) := by
  have hk := (goodElt_parts e hg).1
  have hsk := spacedKey_clean e.key hk
  rcases (goodElt_parts e hg).2 with ⟨hop, o, n, hr, ho1, ho2, hn1, hn2⟩ | ⟨hop2, hv, hw, hc⟩
  · refine ⟨.dict (KVL [("old".data, o), ("new".data, n)]), ?_, ?_, ?_,
      .inl ⟨hop, o, n, hr, rfl⟩⟩
    · unfold lineOf
      rw [if_pos hop, hr]
    · unfold wfV at ho1 hn1 ⊢
      simp [wfM, KVL, ho1, hn1]
    · simp [cleanV, KVL, hsk, ho2, hn2, (by decide : "old".data.all cleanCharB = true),
        (by decide : "new".data.all cleanCharB = true)]
  · have hopne : ¬ e.op = changeS := by
      rcases hop2 with h | h <;> rw [h] <;> decide
    refine ⟨e.result, ?_, ?_, ?_, .inr ⟨hopne, rfl⟩⟩
    · unfold lineOf
      rw [if_neg hopne]
    · unfold wfV at hw ⊢
      simp [wfM, KVL, hw]
    · simp [cleanV, KVL, hsk, hc]

theorem lineOf_facts (e : Elt) (hg : goodElt e = true) :
    (¬ nlC ∈ lineOf e) ∧ (∃ mid, lineOf e = lbC :: (mid ++ [rbC])) ∧
    (∀ c ∈ lineOf e, ¬ c = ltC ∧ ¬ c = gtC) := by
  obtain ⟨P, hline, hwf, hcl, _⟩ := lineOf_props e hg
  refine ⟨?_, ?_, ?_⟩
  · rw [hline]
    exact not_mem_pyRepr _ hcl nlC (by decide) (by decide)
  · rw [hline]
    exact ⟨pyRepr (KVL [(spacedKey e.key, P)]), by rw [pyRepr]; simp⟩
  · rw [hline]
    intro c hc
    rcases pyRepr_chars_clean _ hcl c hc with h | h
    · have hs := cleanCharB_spec c h
      exact ⟨hs.2.2.2.2.2.1, hs.2.2.2.2.2.2.1⟩
    · simp [reprStruct] at h
      rcases h with rfl | rfl | rfl | rfl | rfl | rfl | rfl | rfl | rfl | rfl <;>
        exact ⟨by decide, by decide⟩

theorem lineParse_lineOf (e : Elt) (hg : goodElt e = true) :
    ∃ P, lineParse (lineOf e) = .ok [(spacedKey e.key, P)] ∧
      ((e.op = changeS ∧ ∃ o n, e.result = .tup (.vcons o (.vcons n .vnil)) ∧
          P = .dict (KVL [("old".data, o), ("new".data, n)])) ∨
       (¬ e.op = changeS ∧ P = e.result)) := by
  obtain ⟨P, hline, hwf, hcl, hd⟩ := lineOf_props e hg
  refine ⟨P, ?_, hd⟩
  unfold lineParse
  rw [hline]
  simp only [literalEval_pyRepr _ hwf hcl]
  rfl

theorem lineOf_not_sentinel (e : Elt) (hg : goodElt e = true) :
    ¬ lineOf e = addedMsg ∧ ¬ lineOf e = changedMsg ∧ ¬ lineOf e = removedMsg := by
  obtain ⟨_, ⟨mid, hmid⟩, _⟩ := lineOf_facts e hg
  rw [hmid]
  refine ⟨?_, ?_, ?_⟩ <;> intro h <;> have h0 := congrArg List.head? h <;>
    simp [addedMsg, changedMsg, removedMsg] at h0 <;> exact absurd h0 (by decide)

theorem zone_add (es : List Elt) (ls : List Chars) (acc : List Elt)
    (h : ∀ e ∈ es, goodElt e = true ∧ e.op = addS) :
    fromHtmlLines (es.map lineOf ++ ls) true false false acc =
      fromHtmlLines ls true false false (acc ++ es) := by
  induction es generalizing acc with
  | nil => simp
  | cons e es2 ih =>
    have he := h e (by simp)
    have hsent := lineOf_not_sentinel e he.1
    obtain ⟨P, hlp, hd⟩ := lineParse_lineOf e he.1
    have hP : P = e.result := by
      rcases hd with ⟨hop, _⟩ | ⟨_, hP⟩
      · rw [he.2] at hop
        exact absurd hop (by decide)
      · exact hP
    subst hP
    rw [List.map_cons, List.cons_append]
    rw [fromHtmlLines.eq_def]
    dsimp only
    rw [if_neg hsent.1, if_neg hsent.2.1, if_neg hsent.2.2]
    simp only [hlp,
      show lineToElts [(spacedKey e.key, e.result)] true false false =
        .ok [⟨addS, dottedKey (spacedKey e.key), e.result⟩] from rfl,
      key_round_trip e.key (goodElt_parts e he.1).1,
      show (⟨addS, e.key, e.result⟩ : Elt) = e from by
        cases e with
        | mk op k r =>
          simp only at he
          rw [he.2]]
    rw [ih (acc ++ [e]) (fun x hx => h x (by simp [hx]))]
    simp

theorem zone_remove (es : List Elt) (ls : List Chars) (acc : List Elt)
    (h : ∀ e ∈ es, goodElt e = true ∧ e.op = removeS) :
    fromHtmlLines (es.map lineOf ++ ls) false false true acc =
      fromHtmlLines ls false false true (acc ++ es) := by
  induction es generalizing acc with
  | nil => simp
  | cons e es2 ih =>
    have he := h e (by simp)
    have hsent := lineOf_not_sentinel e he.1
    obtain ⟨P, hlp, hd⟩ := lineParse_lineOf e he.1
    have hP : P = e.result := by
      rcases hd with ⟨hop, _⟩ | ⟨_, hP⟩
      · rw [he.2] at hop
        exact absurd hop (by decide)
      · exact hP
    subst hP
    rw [List.map_cons, List.cons_append]
    rw [fromHtmlLines.eq_def]
    dsimp only
    rw [if_neg hsent.1, if_neg hsent.2.1, if_neg hsent.2.2]
    simp only [hlp,
      show lineToElts [(spacedKey e.key, e.result)] false false true =
        .ok [⟨removeS, dottedKey (spacedKey e.key), e.result⟩] from rfl,
      key_round_trip e.key (goodElt_parts e he.1).1,
      show (⟨removeS, e.key, e.result⟩ : Elt) = e from by
        cases e with
        | mk op k r =>
          simp only at he
          rw [he.2]]
    rw [ih (acc ++ [e]) (fun x hx => h x (by simp [hx]))]
    simp

theorem zone_change (es : List Elt) (ls : List Chars) (acc : List Elt)
    (h : ∀ e ∈ es, goodElt e = true ∧ e.op = changeS) :
    fromHtmlLines (es.map lineOf ++ ls) false true false acc =
      fromHtmlLines ls false true false (acc ++ es) := by
  induction es generalizing acc with
  | nil => simp
  | cons e es2 ih =>
    have he := h e (by simp)
    have hsent := lineOf_not_sentinel e he.1
    obtain ⟨P, hlp, hd⟩ := lineParse_lineOf e he.1
    obtain ⟨o, n, hr, hP⟩ : ∃ o n, e.result = .tup (.vcons o (.vcons n .vnil)) ∧
        P = .dict (KVL [("old".data, o), ("new".data, n)]) := by
      rcases hd with ⟨_, o, n, hr, hP⟩ | ⟨hop, _⟩
      · exact ⟨o, n, hr, hP⟩
      · exact absurd he.2 hop
    subst hP
    rw [List.map_cons, List.cons_append]
    rw [fromHtmlLines.eq_def]
    dsimp only
    rw [if_neg hsent.1, if_neg hsent.2.1, if_neg hsent.2.2]
    simp only [hlp,
      show lineToElts [(spacedKey e.key, .dict (KVL [("old".data, o), ("new".data, n)]))]
          false true false =
        .ok [⟨changeS, dottedKey (spacedKey e.key), .tup (.vcons o (.vcons n .vnil))⟩]
        from rfl,
      key_round_trip e.key (goodElt_parts e he.1).1,
      show (⟨changeS, e.key, .tup (.vcons o (.vcons n .vnil))⟩ : Elt) = e from by
        cases e with
        | mk op k r =>
          simp only at he hr
          rw [he.2, hr]]
    rw [ih (acc ++ [e]) (fun x hx => h x (by simp [hx]))]
    simp

theorem run_remove (rs : List Elt) (h : ∀ e ∈ rs, goodElt e = true ∧ e.op = removeS)
    (acc : List Elt) (az cz rz : Bool) :
    fromHtmlLines (secL removedMsg (rs.map lineOf)) az cz rz acc = .ok (acc ++ rs) := by
  by_cases hes : rs = []
  · subst hes
    simp [secL, fromHtmlLines]
  · rw [show secL removedMsg (rs.map lineOf) = removedMsg :: rs.map lineOf from by
      rw [secL, if_neg (by simpa using hes)]]
    rw [fromHtmlLines.eq_def]
    dsimp only
    rw [if_neg (by decide), if_neg (by decide), if_pos rfl]
    rw [show rs.map lineOf = rs.map lineOf ++ [] from by simp]
    rw [zone_remove rs [] acc h]
    rfl

theorem run_cr (cs rs : List Elt) (hc : ∀ e ∈ cs, goodElt e = true ∧ e.op = changeS)
    (hr : ∀ e ∈ rs, goodElt e = true ∧ e.op = removeS) (acc : List Elt) (az cz rz : Bool) :
    fromHtmlLines (secL changedMsg (cs.map lineOf) ++ secL removedMsg (rs.map lineOf))
      az cz rz acc = .ok (acc ++ cs ++ rs) := by
  by_cases hes : cs = []
  · subst hes
    simp only [List.map_nil, show secL changedMsg [] = [] from by rw [secL, if_pos rfl],
      List.nil_append, List.append_nil]
    exact run_remove rs hr acc az cz rz
  · rw [show secL changedMsg (cs.map lineOf) = changedMsg :: cs.map lineOf from by
      rw [secL, if_neg (by simpa using hes)]]
    rw [List.cons_append, fromHtmlLines.eq_def]
    dsimp only
    rw [if_neg (by decide), if_pos rfl]
    rw [zone_change cs _ acc hc]
    exact run_remove rs hr (acc ++ cs) false true false

theorem run_acr (as cs rs : List Elt) (ha : ∀ e ∈ as, goodElt e = true ∧ e.op = addS)
    (hc : ∀ e ∈ cs, goodElt e = true ∧ e.op = changeS)
    (hr : ∀ e ∈ rs, goodElt e = true ∧ e.op = removeS) (acc : List Elt) (az cz rz : Bool) :
    fromHtmlLines (secL addedMsg (as.map lineOf) ++ secL changedMsg (cs.map lineOf) ++
      secL removedMsg (rs.map lineOf)) az cz rz acc = .ok (acc ++ as ++ cs ++ rs) := by
  by_cases hes : as = []
  · subst hes
    simp only [List.map_nil, show secL addedMsg [] = [] from by rw [secL, if_pos rfl],
      List.nil_append, List.append_nil]
    exact run_cr cs rs hc hr acc az cz rz
  · rw [show secL addedMsg (as.map lineOf) = addedMsg :: as.map lineOf from by
      rw [secL, if_neg (by simpa using hes)]]
    rw [List.append_assoc, List.cons_append, fromHtmlLines.eq_def]
    dsimp only
    rw [if_pos rfl]
    rw [zone_add as _ acc ha]
    rw [show acc ++ as ++ cs ++ rs = (acc ++ as) ++ cs ++ rs from by simp]
    exact run_cr cs rs hc hr (acc ++ as) true false false

theorem fromHtml_sections (D : List Elt) (hg : ∀ e ∈ D, goodElt e = true) (act : Chars) :
    fromHtml (renderTemplate (headerFor act)
      ((D.filter fun e => e.op = addS).map lineOf)
      ((D.filter fun e => e.op = changeS).map lineOf)
      ((D.filter fun e => e.op = removeS).map lineOf)) =
    .ok ((D.filter fun e => e.op = addS) ++ (D.filter fun e => e.op = changeS) ++
      (D.filter fun e => e.op = removeS)) := by
  have hmemA : ∀ x ∈ (D.filter fun e => e.op = addS).map lineOf,
      (¬ nlC ∈ x ∧ ∃ mid, x = lbC :: (mid ++ [rbC])) ∧
        (∀ c ∈ x, ¬ c = ltC ∧ ¬ c = gtC) := by
    intro x hx
    rw [List.mem_map] at hx
    obtain ⟨e, he, rfl⟩ := hx
    have hge := hg e (List.mem_of_mem_filter he)
    obtain ⟨f1, f2, f3⟩ := lineOf_facts e hge
    exact ⟨⟨f1, f2⟩, f3⟩
  have hmemC : ∀ x ∈ (D.filter fun e => e.op = changeS).map lineOf,
      (¬ nlC ∈ x ∧ ∃ mid, x = lbC :: (mid ++ [rbC])) ∧
        (∀ c ∈ x, ¬ c = ltC ∧ ¬ c = gtC) := by
    intro x hx
    rw [List.mem_map] at hx
    obtain ⟨e, he, rfl⟩ := hx
    have hge := hg e (List.mem_of_mem_filter he)
    obtain ⟨f1, f2, f3⟩ := lineOf_facts e hge
    exact ⟨⟨f1, f2⟩, f3⟩
  have hmemR : ∀ x ∈ (D.filter fun e => e.op = removeS).map lineOf,
      (¬ nlC ∈ x ∧ ∃ mid, x = lbC :: (mid ++ [rbC])) ∧
        (∀ c ∈ x, ¬ c = ltC ∧ ¬ c = gtC) := by
    intro x hx
    rw [List.mem_map] at hx
    obtain ⟨e, he, rfl⟩ := hx
    have hge := hg e (List.mem_of_mem_filter he)
    obtain ⟨f1, f2, f3⟩ := lineOf_facts e hge
    exact ⟨⟨f1, f2⟩, f3⟩
  have hfA : ∀ e ∈ D.filter (fun e => e.op = addS), goodElt e = true ∧ e.op = addS := by
    intro e he
    exact ⟨hg e (List.mem_of_mem_filter he), by simpa using List.of_mem_filter he⟩
  have hfC : ∀ e ∈ D.filter (fun e => e.op = changeS), goodElt e = true ∧ e.op = changeS := by
    intro e he
    exact ⟨hg e (List.mem_of_mem_filter he), by simpa using List.of_mem_filter he⟩
  have hfR : ∀ e ∈ D.filter (fun e => e.op = removeS), goodElt e = true ∧ e.op = removeS := by
    intro e he
    exact ⟨hg e (List.mem_of_mem_filter he), by simpa using List.of_mem_filter he⟩
  unfold fromHtml
  rw [show cleanupHtmlTags (renderTemplate (headerFor act)
      ((D.filter fun e => e.op = addS).map lineOf)
      ((D.filter fun e => e.op = changeS).map lineOf)
      ((D.filter fun e => e.op = removeS).map lineOf)) =
    stripTagsAux false (renderTemplate (headerFor act)
      ((D.filter fun e => e.op = addS).map lineOf)
      ((D.filter fun e => e.op = changeS).map lineOf)
      ((D.filter fun e => e.op = removeS).map lineOf)) from by
    unfold cleanupHtmlTags
    rw [if_pos (Or.inl (by
      rw [renderTemplate]
      repeat apply List.mem_append_left
      decide))]]
  rw [strip_template (headerFor act) _ _ _ (headerFor_facts act).1
    (fun x hx => (hmemA x hx).2) (fun x hx => (hmemC x hx).2) (fun x hx => (hmemR x hx).2)]
  rw [normLines_template (headerFor act) _ _ _ (headerFor_facts act).2
    (fun x hx => (hmemA x hx).1) (fun x hx => (hmemC x hx).1) (fun x hx => (hmemR x hx).1)]
  dsimp only
  rw [run_acr _ _ _ hfA hfC hfR [] false false false]
  simp

theorem perm_three (D : List Elt) (hg : ∀ e ∈ D, goodElt e = true) :
    ((D.filter fun e => e.op = addS) ++ (D.filter fun e => e.op = changeS) ++
      (D.filter fun e => e.op = removeS)).Perm D := by
  induction D with
  | nil => simp
  | cons e es ih =>
    have hge := hg e (by simp)
    have ihr := ih (fun x hx => hg x (by simp [hx]))
    have hops : e.op = addS ∨ e.op = changeS ∨ e.op = removeS := by
      rcases (goodElt_parts e hge).2 with ⟨hop, _⟩ | ⟨hop2, _⟩
      · right
        left
        exact hop
      · rcases hop2 with h | h
        · left
          exact h
        · right
          right
          exact h
    rcases hops with hop | hop | hop
    · rw [show (e :: es).filter (fun e => e.op = addS) =
        e :: es.filter (fun e => e.op = addS) from by simp [List.filter_cons, hop],
        show (e :: es).filter (fun e => e.op = changeS) =
          es.filter (fun e => e.op = changeS) from by
          simp [List.filter_cons, hop, show ¬ addS = changeS from by decide],
        show (e :: es).filter (fun e => e.op = removeS) =
          es.filter (fun e => e.op = removeS) from by
          simp [List.filter_cons, hop, show ¬ addS = removeS from by decide]]
      rw [List.cons_append, List.cons_append]
      exact ihr.cons e
    · rw [show (e :: es).filter (fun e => e.op = addS) =
        es.filter (fun e => e.op = addS) from by
          simp [List.filter_cons, hop, show ¬ changeS = addS from by decide],
        show (e :: es).filter (fun e => e.op = changeS) =
          e :: es.filter (fun e => e.op = changeS) from by simp [List.filter_cons, hop],
        show (e :: es).filter (fun e => e.op = removeS) =
          es.filter (fun e => e.op = removeS) from by
          simp [List.filter_cons, hop, show ¬ changeS = removeS from by decide]]
      have h1 : es.filter (fun e => e.op = addS) ++ (e :: es.filter (fun e => e.op = changeS)) ++
          es.filter (fun e => e.op = removeS) =
          es.filter (fun e => e.op = addS) ++ e :: (es.filter (fun e => e.op = changeS) ++
            es.filter (fun e => e.op = removeS)) := by simp
      have h3 : List.Perm (es.filter (fun e => e.op = addS) ++ (es.filter (fun e => e.op = changeS) ++
          es.filter (fun e => e.op = removeS))) es := by
        rw [show es.filter (fun e => e.op = addS) ++ (es.filter (fun e => e.op = changeS) ++
          es.filter (fun e => e.op = removeS)) = es.filter (fun e => e.op = addS) ++
            es.filter (fun e => e.op = changeS) ++ es.filter (fun e => e.op = removeS)
          from by simp]
        exact ihr
      rw [h1]
      exact List.Perm.trans List.perm_middle (h3.cons e)
    · rw [show (e :: es).filter (fun e => e.op = addS) =
        es.filter (fun e => e.op = addS) from by
          simp [List.filter_cons, hop, show ¬ removeS = addS from by decide],
        show (e :: es).filter (fun e => e.op = changeS) =
          es.filter (fun e => e.op = changeS) from by
          simp [List.filter_cons, hop, show ¬ removeS = changeS from by decide],
        show (e :: es).filter (fun e => e.op = removeS) =
          e :: es.filter (fun e => e.op = removeS) from by simp [List.filter_cons, hop]]
      exact List.Perm.trans List.perm_middle (ihr.cons e)

/-- C7 (amended): for elements with supported shapes, clean payload and
operation strings, and clean dot-separated keys without spaces, the
rendered comment parses back to a permutation of the original Diff Set
(adds first, then changes, then removes). -/
theorem c7_round_trip_amended (D : List Elt) (a : Chars)
    (hg : ∀ e ∈ D, goodElt e = true) :
    ∃ html D2, procToHtml D a = .ok html ∧ fromHtml html = .ok D2 ∧ D2.Perm D := by
  refine ⟨_, _, ?_, fromHtml_sections D hg (if knownAction a then a else "default".data),
    perm_three D hg⟩
  unfold procToHtml
  simp only [procValidate_all_valid D (fun e he => goodElt_validate e (hg e he)),
    exceptBind_ok, collectGroups_spec D hg]
  rfl

theorem c7_witness :
    (∀ e ∈ [Elt.mk addS "t".data (.lst (VL [.str "v".data])),
        Elt.mk changeS "u.w".data (.tup (VL [.str "a".data, .str "b".data]))],
      goodElt e = true) ∧
    ∃ html D2, procToHtml [Elt.mk addS "t".data (.lst (VL [.str "v".data])),
        Elt.mk changeS "u.w".data (.tup (VL [.str "a".data, .str "b".data]))]
        "resubmit".data = .ok html ∧ fromHtml html = .ok D2 ∧
      D2.Perm [Elt.mk addS "t".data (.lst (VL [.str "v".data])),
        Elt.mk changeS "u.w".data (.tup (VL [.str "a".data, .str "b".data]))] :=
  ⟨by decide, c7_round_trip_amended _ _ (by decide)⟩

end InvenioCurations
